import Mathlib

/-! # Hash implementation of a Set ADT (`hashset.c`)

A shallow embedding of `src/hashset.c` and a verification development over it.

Modelling conventions.

* Elements are opaque handles (`void *`), here an arbitrary type `α`.
* A bucket chain (a `NULL`-terminated singly linked list of `Node`s) is the
  list of the values it holds, head first.  A node of a chain is identified
  by its position in the chain.
* The bucket array `Node **buckets` is a list of chains.  Its length is the
  allocated length, kept apart from the `capacity` field, so that an index
  outside the allocation is visible.
* Every operation that indexes the bucket array returns an `Option`; `none`
  stands for an access outside the array or past the end of a chain, where
  the C program has no defined behaviour.
* `long` fields are integers.  The one narrowing in the program, the `int N`
  of `resize`, is taken modulo `2 ^ 32`.  The counters `size` and `changes`
  move by one per call and are not wrapped: a table of `2 ^ 63` nodes does
  not fit in the address space.
* `double` fields are exact rationals.
* Every `malloc` is a Boolean argument of the operation that performs it:
  `true` when the allocation succeeds.
* The destructor `freeV` is present (`true`) or `NULL` (`false`); the values
  it has been invoked on are recorded, in order, in the field `freed`.
* The dispatch structure `Set` only carries method pointers and `self`, so a
  set is identified with its `SData`.
-/

namespace HashSetADT

/-- The constant `DEFAULT_CAPACITY`. -/
def DEFAULT_CAPACITY : Int := 16

/-- The constant `MAX_CAPACITY`. -/
def MAX_CAPACITY : Int := 134217728

/-- The constant `DEFAULT_LOAD_FACTOR`. -/
def DEFAULT_LOAD_FACTOR : ℚ := 3 / 4

/-- The constant `TRIGGER`. -/
def TRIGGER : Int := 100

/-- Conversion of an integer to a 64-bit `long`. -/
def toLong (x : Int) : Int := (x + 2 ^ 63) % 2 ^ 64 - 2 ^ 63

/-- Conversion of an integer to a 32-bit `int`. -/
def toInt32 (x : Int) : Int := (x + 2 ^ 31) % 2 ^ 32 - 2 ^ 31

/-- The structure `SData`: the data members of a set. -/
structure SData (α : Type) where
  hash : α → Int → Int
  cmp : α → α → Int
  size : Int
  capacity : Int
  changes : Int
  load : ℚ
  loadFactor : ℚ
  increment : ℚ
  buckets : List (List α)
  freeV : Bool
  freed : List α

variable {α : Type}

/-- Read of `buckets[i]`; `none` when `i` is outside the array. -/
def readAt (b : List (List α)) (i : Int) : Option (List α) :=
  if 0 ≤ i then b[i.toNat]? else none

/-- Store `buckets[i] = chain`. -/
def writeAt (b : List (List α)) (i : Int) (chain : List α) : List (List α) :=
  b.set i.toNat chain

/-- The chains `buckets[0]`, ..., `buckets[n-1]` in the order a loop
`for (i = 0; i < n; i++)` visits them; `none` when one read is outside the array. -/
def chainsUpTo (b : List (List α)) : Nat → Option (List (List α))
  | 0 => some []
  | n + 1 =>
    match chainsUpTo b n, b[n]? with
    | some visited, some chain => some (visited ++ [chain])
    | _, _ => none

/-- The function `purge`: every value of every bucket below `capacity` is passed to
the destructor (when there is one), its node is freed, and the bucket is emptied. -/
def purge (sd : SData α) (freeV : Bool) : Option (SData α) :=
  match chainsUpTo sd.buckets sd.capacity.toNat with
  | none => none
  | some chains =>
    some { sd with
      buckets := List.replicate sd.capacity.toNat [] ++ sd.buckets.drop sd.capacity.toNat
      freed := if freeV then sd.freed ++ chains.flatten else sd.freed }

/-- The method `clear`. -/
def s_clear (sd : SData α) : Option (SData α) :=
  match purge sd sd.freeV with
  | none => none
  | some sd1 => some { sd1 with size := 0, load := 0, changes := 0 }

/-- The inner loop of `resize`: each node of a chain, from the head on, is pushed on
the front of the bucket `hash(value, N)` of the new array. -/
def rehashChain (hash : α → Int → Int) (N : Int) :
    List α → List (List α) → Option (List (List α))
  | [], array => some array
  | v :: rest, array =>
    match readAt array (hash v N) with
    | none => none
    | some chain => rehashChain hash N rest (writeAt array (hash v N) (v :: chain))

/-- The outer loop of `resize` over the chains of the old array. -/
def rehashAll (hash : α → Int → Int) (N : Int) :
    List (List α) → List (List α) → Option (List (List α))
  | [], array => some array
  | chain :: chains, array =>
    match rehashChain hash N chain array with
    | none => none
    | some array1 => rehashAll hash N chains array1

/-- The function `resize`; `alloc` tells whether the new array can be allocated. -/
def resize (sd : SData α) (alloc : Bool) : Option (SData α) :=
  let N0 := toInt32 (toLong (2 * sd.capacity))
  let N := if N0 > MAX_CAPACITY then toInt32 MAX_CAPACITY else N0
  if N = sd.capacity then some sd
  else if alloc = false then some sd
  else
    match chainsUpTo sd.buckets sd.capacity.toNat with
    | none => none
    | some chains =>
      match rehashAll sd.hash N chains (List.replicate N.toNat []) with
      | none => none
      | some array =>
        some { sd with
          buckets := array
          capacity := N
          load := sd.load / 2
          changes := 0
          increment := 1 / (N : ℚ) }

/-- The scan of `findMember` along one chain: the position of the first node whose
value `v` has `cmp(v, member) == 0`, or `none` (the `NULL` pointer). -/
def findNode (cmp : α → α → Int) (member : α) : List α → Option Nat
  | [] => none
  | v :: rest =>
    if cmp v member = 0 then some 0
    else
      match findNode cmp member rest with
      | none => none
      | some k => some (k + 1)

/-- The function `findMember`: the node found (or `NULL`) and the bucket index
stored through the `bucket` pointer. -/
def findMember (sd : SData α) (member : α) : Option (Option Nat × Int) :=
  match readAt sd.buckets (sd.hash member sd.capacity) with
  | none => none
  | some chain => some (findNode sd.cmp member chain, sd.hash member sd.capacity)

/-- The function `insertNode`; `alloc` tells whether the node can be allocated. -/
def insertNode (sd : SData α) (member : α) (i : Int) (alloc : Bool) :
    Option (SData α × Int) :=
  if alloc = false then some (sd, 0)
  else
    match readAt sd.buckets i with
    | none => none
    | some chain =>
      some ({ sd with
        buckets := writeAt sd.buckets i (member :: chain)
        size := sd.size + 1
        load := sd.load + sd.increment
        changes := sd.changes + 1 }, 1)

/-- The load check that opens `add`: past `TRIGGER` changes the counter is reset
and the set is resized when the load exceeds the load factor. -/
def loadCheck (sd : SData α) (allocArray : Bool) : Option (SData α) :=
  if sd.changes > TRIGGER then
    if sd.load > sd.loadFactor then resize { sd with changes := 0 } allocArray
    else some { sd with changes := 0 }
  else some sd

/-- The method `add`. -/
def s_add (sd : SData α) (member : α) (allocArray allocNode : Bool) :
    Option (SData α × Int) :=
  match loadCheck sd allocArray with
  | none => none
  | some sd1 =>
    match findMember sd1 member with
    | none => none
    | some (none, i) => insertNode sd1 member i allocNode
    | some (some _, _) => some (sd1, 0)

/-- The method `contains`. -/
def s_contains (sd : SData α) (member : α) : Option Int :=
  match findMember sd member with
  | none => none
  | some (none, _) => some 0
  | some (some _, _) => some 1

/-- The method `isEmpty`. -/
def s_isEmpty (sd : SData α) : Int :=
  if sd.size = 0 then 1 else 0

/-- The walk of `remove` from the head of a chain to node `k`, and the unlinking of
that node: the value of the node and the chain without it; `none` when the walk
runs off the end of the chain. -/
def unlink : List α → Nat → Option (α × List α)
  | [], _ => none
  | v :: rest, 0 => some (v, rest)
  | v :: rest, k + 1 =>
    match unlink rest k with
    | none => none
    | some (removed, rest1) => some (removed, v :: rest1)

/-- The method `remove`. -/
def s_remove (sd : SData α) (member : α) : Option (SData α × Int) :=
  match findMember sd member with
  | none => none
  | some (none, _) => some (sd, 0)
  | some (some k, i) =>
    match readAt sd.buckets i with
    | none => none
    | some chain =>
      match unlink chain k with
      | none => none
      | some (removed, chain1) =>
        some ({ sd with
          buckets := writeAt sd.buckets i chain1
          size := sd.size - 1
          load := sd.load - sd.increment
          changes := sd.changes + 1
          freed := if sd.freeV then sd.freed ++ [removed] else sd.freed }, 1)

/-- The method `size`. -/
def s_size (sd : SData α) : Int := sd.size

/-- The stores `tmp[n++] = value` of `valueArray` into an array of `len` slots,
starting at slot `n`; a slot never written holds `none`; the result is `none` when
a store falls outside the array. -/
def fillArray : List α → List (Option α) → Nat → Option (List (Option α))
  | [], tmp, _ => some tmp
  | v :: rest, tmp, n =>
    if n < tmp.length then fillArray rest (tmp.set n (some v)) (n + 1) else none

/-- The function `valueArray`: `some none` is the `NULL` result. -/
def valueArray (sd : SData α) (alloc : Bool) : Option (Option (List (Option α))) :=
  if sd.size > 0 then
    if alloc = false then some none
    else
      match chainsUpTo sd.buckets sd.capacity.toNat with
      | none => none
      | some chains =>
        match fillArray chains.flatten (List.replicate sd.size.toNat none) 0 with
        | none => none
        | some tmp => some (some tmp)
  else some none

/-- The method `toArray`: the array returned and the value stored in `*len`, or
`some none` for a `NULL` result, which leaves `*len` alone. -/
def s_toArray (sd : SData α) (alloc : Bool) :
    Option (Option (List (Option α) × Int)) :=
  match valueArray sd alloc with
  | none => none
  | some none => some none
  | some (some tmp) => some (some (tmp, sd.size))

/-- The function `newSet`; the three flags tell whether the set, its data and its
bucket array can be allocated; `none` is the `NULL` result. -/
def newSet (capacity : Int) (loadFactor : ℚ) (hash : α → Int → Int)
    (cmp : α → α → Int) (freeV : Bool) (allocSet allocData allocArray : Bool) :
    Option (SData α) :=
  if allocSet = false then none
  else if allocData = false then none
  else
    let N0 := if capacity > 0 then capacity else DEFAULT_CAPACITY
    let N := if N0 > MAX_CAPACITY then MAX_CAPACITY else N0
    let lf := if loadFactor > 1 / 1000000 then loadFactor else DEFAULT_LOAD_FACTOR
    if allocArray = false then none
    else
      some
        { capacity := N
          loadFactor := lf
          size := 0
          load := 0
          changes := 0
          increment := 1 / (N : ℚ)
          hash := hash
          cmp := cmp
          freeV := freeV
          buckets := List.replicate N.toNat []
          freed := [] }

/-- The constructor `HashSet`. -/
def HashSet (freeValue : Bool) (cmpFxn : α → α → Int) (capacity : Int) (loadFactor : ℚ)
    (hashFxn : α → Int → Int) (allocSet allocData allocArray : Bool) : Option (SData α) :=
  newSet capacity loadFactor hashFxn cmpFxn freeValue allocSet allocData allocArray

/-- A call of one of the methods of a set. -/
inductive Call (α : Type) where
  | add (member : α) (allocArray allocNode : Bool)
  | remove (member : α)
  | clear
  | contains (member : α)
  | isEmpty
  | size

/-- The effect of one call: the state after it and the value returned (`none` for
the `void` method `clear`). -/
def exec (sd : SData α) : Call α → Option (SData α × Option Int)
  | Call.add member allocArray allocNode =>
    match s_add sd member allocArray allocNode with
    | none => none
    | some (sd1, r) => some (sd1, some r)
  | Call.remove member =>
    match s_remove sd member with
    | none => none
    | some (sd1, r) => some (sd1, some r)
  | Call.clear =>
    match s_clear sd with
    | none => none
    | some sd1 => some (sd1, none)
  | Call.contains member =>
    match s_contains sd member with
    | none => none
    | some r => some (sd, some r)
  | Call.isEmpty => some (sd, some (s_isEmpty sd))
  | Call.size => some (sd, some (s_size sd))

/-- The effect of a sequence of calls: the final state and the values returned. -/
def execAll (sd : SData α) : List (Call α) → Option (SData α × List (Option Int))
  | [] => some (sd, [])
  | c :: cs =>
    match exec sd c with
    | none => none
    | some (sd1, r) =>
      match execAll sd1 cs with
      | none => none
      | some (sd2, rs) => some (sd2, r :: rs)

/-- A state is reachable when a sequence of calls leads to it from a set that
`HashSet` has just constructed. -/
def Reachable (sd : SData α) : Prop :=
  ∃ (freeValue : Bool) (cmpFxn : α → α → Int) (capacity : Int) (loadFactor : ℚ)
    (hashFxn : α → Int → Int) (sd0 : SData α) (calls : List (Call α))
    (rets : List (Option Int)),
    HashSet freeValue cmpFxn capacity loadFactor hashFxn true true true = some sd0 ∧
    execAll sd0 calls = some (sd, rets)

/-- The hash function returns an index in `[0, n)` for every bucket count `n > 0`. -/
def HashInRange (hash : α → Int → Int) : Prop :=
  ∀ x n, 0 < n → 0 ≤ hash x n ∧ hash x n < n

/-- Every value stored in the chain of bucket `i` of the array `b` hashes to `i`
for the bucket count `n`. -/
def PlacedIn (hash : α → Int → Int) (n : Int) (b : List (List α)) : Prop :=
  ∀ (i : Nat) (chain : List α), b[i]? = some chain → ∀ v ∈ chain, hash v n = (i : Int)

/-- The capacity lies between one and the maximum, and the bucket array has exactly
`capacity` slots. -/
def Slots (sd : SData α) : Prop :=
  1 ≤ sd.capacity ∧ sd.capacity ≤ MAX_CAPACITY ∧ sd.buckets.length = sd.capacity.toNat

/-- The bucket-placement invariant of a set. -/
def Placed (sd : SData α) : Prop :=
  PlacedIn sd.hash sd.capacity sd.buckets

/-- The entries of a set: the values met by a traversal of all chains, bucket after
bucket. -/
def entries (sd : SData α) : List α := sd.buckets.flatten

/-- The fields of a set that no method assigns after construction. -/
def SameCallbacks (sd sd1 : SData α) : Prop :=
  sd1.hash = sd.hash ∧ sd1.cmp = sd.cmp ∧ sd1.freeV = sd.freeV ∧
    sd1.loadFactor = sd.loadFactor

/-- The comparator is an equivalence relation, `0` meaning equal. -/
def CmpEquivalence (cmp : α → α → Int) : Prop :=
  (∀ x, cmp x x = 0) ∧ (∀ x y, cmp x y = 0 → cmp y x = 0) ∧
    (∀ x y z, cmp x y = 0 → cmp y z = 0 → cmp x z = 0)

/-- Elements that compare equal hash to the same bucket, for every bucket count. -/
def HashConsistent (hash : α → Int → Int) (cmp : α → α → Int) : Prop :=
  ∀ x y n, cmp x y = 0 → hash x n = hash y n

/-- The value held by the node that `remove(member)` unlinks, when it unlinks one. -/
def removedValue (sd : SData α) (member : α) : Option α :=
  match findMember sd member with
  | some (some k, i) =>
    match readAt sd.buckets i with
    | some chain =>
      match unlink chain k with
      | some (removed, _) => some removed
      | none => none
    | none => none
  | _ => none

/-- The sequence of calls, run from `sd`, never calls `clear` and never removes an
entry equal to `e`: the value a `remove` unlinks differs from `e` under the comparator
in at least one argument order. -/
def keepsMember (e : α) : SData α → List (Call α) → Bool
  | _, [] => true
  | sd, c :: cs =>
    (match c with
      | Call.clear => false
      | Call.remove member =>
        match removedValue sd member with
        | some v => sd.cmp v e != 0 || sd.cmp e v != 0
        | none => true
      | _ => true) &&
    (match exec sd c with
      | some (sd1, _) => keepsMember e sd1 cs
      | none => true)

/-- A modulo hash on integers, used in examples. -/
def modHash (x : Int) (n : Int) : Int := x % n

/-- Numeric equality as a comparator, used in examples. -/
def numCmp (x y : Int) : Int := if x = y then 0 else 1

/-- The set `HashSet(NULL, numCmp, 2, 0.5, modHash)` right after construction. -/
def demoFresh : SData Int :=
  { hash := modHash
    cmp := numCmp
    size := 0
    capacity := 2
    changes := 0
    load := 0
    loadFactor := 1 / 2
    increment := 1 / ((2 : Int) : ℚ)
    buckets := [[], []]
    freeV := false
    freed := [] }

/-- The set `demoFresh` after `add(1)`. -/
def demoOne : SData Int :=
  { demoFresh with
    buckets := [[], [1]]
    size := 0 + 1
    load := 0 + 1 / ((2 : Int) : ℚ)
    changes := 0 + 1 }

/-- The set `demoFresh` after `add(1)`, `add(3)`, `add(2)`. -/
def demoThree : SData Int :=
  { demoFresh with
    buckets := [[2], [3, 1]]
    size := 0 + 1 + 1 + 1
    load := 0 + 1 / ((2 : Int) : ℚ) + 1 / ((2 : Int) : ℚ) + 1 / ((2 : Int) : ℚ)
    changes := 0 + 1 + 1 + 1 }

/-- No entry of the set compares equal to an entry that follows it in the traversal
of the chains. -/
def Unique (sd : SData α) : Prop :=
  (entries sd).Pairwise fun a b => sd.cmp a b ≠ 0

/-- Every call of the sequence is an `add`. -/
def onlyAdds : List (Call α) → Bool
  | [] => true
  | Call.add _ _ _ :: cs => onlyAdds cs
  | _ :: _ => false

/-- The members of the `add` calls of a sequence that returned 1, in call order. -/
def inserted : List (Call α) → List (Option Int) → List α
  | Call.add member _ _ :: cs, r :: rs =>
    if r = some 1 then member :: inserted cs rs else inserted cs rs
  | _ :: cs, _ :: rs => inserted cs rs
  | _, _ => []

/-- Modelled on the words of the specification: membership in a mathematical set
taken modulo the comparator; the set is given by a list of representatives. -/
def specMember (cmp : α → α → Int) (S : List α) (e : α) : Bool :=
  S.any fun v => cmp v e == 0

/-- Modelled on the words of the specification: one operation applied to a
mathematical set modulo the comparator, and the value the operation returns. -/
def specExec (cmp : α → α → Int) (S : List α) : Call α → List α × Option Int
  | Call.add e _ _ => if specMember cmp S e then (S, some 0) else (e :: S, some 1)
  | Call.remove e =>
    if specMember cmp S e then (S.filter fun v => cmp v e != 0, some 1) else (S, some 0)
  | Call.clear => ([], none)
  | Call.contains e => (S, some (if specMember cmp S e then 1 else 0))
  | Call.isEmpty => (S, some (if S.length = 0 then 1 else 0))
  | Call.size => (S, some (S.length : Int))

/-- Modelled on the words of the specification: a sequence of operations applied to
a mathematical set, and the values returned. -/
def specExecAll (cmp : α → α → Int) (S : List α) : List (Call α) → List α × List (Option Int)
  | [] => (S, [])
  | c :: cs =>
    match specExec cmp S c with
    | (S1, r) =>
      match specExecAll cmp S1 cs with
      | (S2, rs) => (S2, r :: rs)

/-- Every `add` of the sequence can allocate its node. -/
def nodesAllocated : List (Call α) → Bool
  | [] => true
  | Call.add _ _ allocNode :: cs => allocNode && nodesAllocated cs
  | _ :: cs => nodesAllocated cs

/-- The scenario of the specification: `add` of the integers 1 to 1000, then `size`,
`contains(500)`, `contains(1500)`, `remove(500)`, `size`, `contains(500)`. -/
def scenarioCalls : List (Call Int) :=
  (List.range' 1 1000).map (fun i : Nat => Call.add (i : Int) true true) ++
    [Call.size, Call.contains 500, Call.contains 1500, Call.remove 500, Call.size,
      Call.contains 500]

/-- The part of `add` that follows the load check: `findMember`, then `insertNode`
when no equal value was found. -/
def locateInsert (sd : SData α) (member : α) (allocNode : Bool) : Option (SData α × Int) :=
  match findMember sd member with
  | none => none
  | some (none, i) => insertNode sd member i allocNode
  | some (some _, _) => some (sd, 0)

/-- Every `add` of the sequence can allocate the array of a `resize`. -/
def arraysAllocated : List (Call α) → Bool
  | [] => true
  | Call.add _ allocArray _ :: cs => allocArray && arraysAllocated cs
  | _ :: cs => arraysAllocated cs

/-- The calls `add(1)`, ..., `add(n)` on integers, every allocation succeeding. -/
def addsUpTo (n : Nat) : List (Call Int) :=
  (List.range' 1 n).map fun i : Nat => Call.add (i : Int) true true

/-- The capacity `resize` aims at, for a capacity between one and the maximum. -/
def grownCapacity (c : Int) : Int :=
  if 2 * c > MAX_CAPACITY then MAX_CAPACITY else 2 * c

/-! ## Lists of chains -/

theorem chainsUpTo_eq_take (b : List (List α)) :
    ∀ n, n ≤ b.length → chainsUpTo b n = some (b.take n)
  | 0, _ => by simp [chainsUpTo]
  | n + 1, h => by
    have hn : n < b.length := by omega
    have ih := chainsUpTo_eq_take b n (by omega)
    unfold chainsUpTo
    rw [ih, List.getElem?_eq_getElem hn, List.take_succ, List.getElem?_eq_getElem hn]
    rfl

theorem chainsUpTo_length (b : List (List α)) : chainsUpTo b b.length = some b := by
  simpa using chainsUpTo_eq_take b b.length (le_refl _)

theorem chainsUpTo_some {b : List (List α)} :
    ∀ {n : Nat} {chains : List (List α)}, chainsUpTo b n = some chains →
      n ≤ b.length ∧ chains = b.take n
  | 0, chains, h => by
    simp [chainsUpTo] at h
    simp [h]
  | n + 1, chains, h => by
    unfold chainsUpTo at h
    cases hv : chainsUpTo b n with
    | none => simp [hv] at h
    | some visited =>
      cases hc : b[n]? with
      | none => simp [hv, hc] at h
      | some chain =>
        simp [hv, hc] at h
        obtain ⟨hlt, _⟩ := List.getElem?_eq_some.mp hc
        obtain ⟨_, hvis⟩ := chainsUpTo_some hv
        refine ⟨by omega, ?_⟩
        rw [← h, hvis, List.take_succ, hc]
        rfl

theorem readAt_some {b : List (List α)} {i : Int} {chain : List α}
    (h : readAt b i = some chain) :
    0 ≤ i ∧ i.toNat < b.length ∧ b[i.toNat]? = some chain := by
  unfold readAt at h
  by_cases hi : 0 ≤ i
  · rw [if_pos hi] at h
    exact ⟨hi, (List.getElem?_eq_some.mp h).1, h⟩
  · rw [if_neg hi] at h
    cases h

theorem readAt_of_lt {b : List (List α)} {i : Int} (h0 : 0 ≤ i) (h1 : i.toNat < b.length) :
    ∃ chain, readAt b i = some chain := by
  refine ⟨b[i.toNat], ?_⟩
  unfold readAt
  rw [if_pos h0]
  exact List.getElem?_eq_getElem h1

theorem readAt_split {b : List (List α)} {i : Int} {chain : List α}
    (h : readAt b i = some chain) :
    ∃ pre post, b = pre ++ chain :: post ∧ pre.length = i.toNat ∧
      ∀ chain1, writeAt b i chain1 = pre ++ chain1 :: post := by
  obtain ⟨_, hlt, hget⟩ := readAt_some h
  obtain ⟨_, hval⟩ := List.getElem?_eq_some.mp hget
  refine ⟨b.take i.toNat, b.drop (i.toNat + 1), ?_, ?_, ?_⟩
  · conv_lhs => rw [← List.take_append_drop i.toNat b]
    rw [List.drop_eq_getElem_cons hlt, hval]
  · simp [List.length_take]
    omega
  · intro chain1
    unfold writeAt
    exact List.set_eq_take_append_cons_drop.trans (by simp [hlt])

theorem length_writeAt (b : List (List α)) (i : Int) (chain : List α) :
    (writeAt b i chain).length = b.length := by
  simp [writeAt]

theorem flatten_writeAt_perm {b : List (List α)} {i : Int} {chain : List α}
    (h : readAt b i = some chain) (v : α) :
    (writeAt b i (v :: chain)).flatten.Perm (v :: b.flatten) := by
  obtain ⟨pre, post, hb, _, hw⟩ := readAt_split h
  rw [hw, hb]
  simp only [List.flatten_append, List.flatten_cons, List.cons_append]
  exact List.perm_middle

theorem placedIn_writeAt {hash : α → Int → Int} {n : Int} {b : List (List α)} {i : Int}
    {chain chain1 : List α} (h : readAt b i = some chain) (hp : PlacedIn hash n b)
    (hc : ∀ v ∈ chain1, hash v n = i) : PlacedIn hash n (writeAt b i chain1) := by
  obtain ⟨h0, hlt, _⟩ := readAt_some h
  intro j c hj v hv
  unfold writeAt at hj
  rw [List.getElem?_set] at hj
  by_cases hij : i.toNat = j
  · rw [if_pos hij, if_pos hlt] at hj
    cases hj
    rw [hc v hv, ← hij, Int.toNat_of_nonneg h0]
  · rw [if_neg hij] at hj
    exact hp j c hj v hv

theorem placedIn_replicate (hash : α → Int → Int) (n : Int) (k : Nat) :
    PlacedIn hash n (List.replicate k []) := by
  intro i chain hi v hv
  rw [List.getElem?_replicate] at hi
  split at hi
  · cases hi
    cases hv
  · cases hi

theorem mem_entries_iff {b : List (List α)} {v : α} :
    v ∈ b.flatten ↔ ∃ (i : Nat) (chain : List α), b[i]? = some chain ∧ v ∈ chain := by
  rw [List.mem_flatten]
  constructor
  · rintro ⟨chain, hc, hv⟩
    obtain ⟨i, hi⟩ := List.mem_iff_getElem?.mp hc
    exact ⟨i, chain, hi, hv⟩
  · rintro ⟨i, chain, hi, hv⟩
    exact ⟨chain, List.mem_iff_getElem?.mpr ⟨i, hi⟩, hv⟩

/-! ## The rehash loops of `resize` -/

theorem rehashChain_some {hash : α → Int → Int} {N : Int} :
    ∀ (l : List α) (array array1 : List (List α)),
      rehashChain hash N l array = some array1 →
      array1.length = array.length ∧ array1.flatten.Perm (l ++ array.flatten) ∧
        (PlacedIn hash N array → PlacedIn hash N array1)
  | [], array, array1, h => by
    simp only [rehashChain, Option.some.injEq] at h
    subst h
    exact ⟨rfl, List.Perm.refl _, id⟩
  | v :: rest, array, array1, h => by
    unfold rehashChain at h
    cases hr : readAt array (hash v N) with
    | none => simp [hr] at h
    | some chain =>
      simp only [hr] at h
      obtain ⟨hlen, hperm, hpl⟩ := rehashChain_some rest _ _ h
      refine ⟨by rw [hlen, length_writeAt], ?_, ?_⟩
      · refine hperm.trans ?_
        refine (List.Perm.append_left rest (flatten_writeAt_perm hr v)).trans ?_
        exact List.perm_middle
      · intro hp
        apply hpl
        apply placedIn_writeAt hr hp
        intro w hw
        rcases List.mem_cons.mp hw with rfl | hw
        · rfl
        · obtain ⟨h0, _, hget⟩ := readAt_some hr
          rw [hp _ _ hget w hw, Int.toNat_of_nonneg h0]

theorem rehashAll_some {hash : α → Int → Int} {N : Int} :
    ∀ (chains array array1 : List (List α)),
      rehashAll hash N chains array = some array1 →
      array1.length = array.length ∧ array1.flatten.Perm (chains.flatten ++ array.flatten) ∧
        (PlacedIn hash N array → PlacedIn hash N array1)
  | [], array, array1, h => by
    simp only [rehashAll, Option.some.injEq] at h
    subst h
    exact ⟨rfl, List.Perm.refl _, id⟩
  | chain :: chains, array, array1, h => by
    unfold rehashAll at h
    cases hr : rehashChain hash N chain array with
    | none => simp [hr] at h
    | some array0 =>
      simp only [hr] at h
      obtain ⟨hlen0, hperm0, hpl0⟩ := rehashChain_some _ _ _ hr
      obtain ⟨hlen, hperm, hpl⟩ := rehashAll_some chains _ _ h
      refine ⟨hlen.trans hlen0, ?_, fun hp => hpl (hpl0 hp)⟩
      refine hperm.trans ?_
      refine (List.Perm.append_left chains.flatten hperm0).trans ?_
      rw [List.flatten_cons, ← List.append_assoc]
      exact List.Perm.append_right _ List.perm_append_comm

theorem rehashChain_total {hash : α → Int → Int} {N : Int} (hh : HashInRange hash)
    (hN : 0 < N) :
    ∀ (l : List α) (array : List (List α)), array.length = N.toNat →
      ∃ array1, rehashChain hash N l array = some array1
  | [], array, _ => ⟨array, rfl⟩
  | v :: rest, array, hlen => by
    obtain ⟨h0, h1⟩ := hh v N hN
    obtain ⟨chain, hr⟩ := @readAt_of_lt α array _ h0 (by omega)
    unfold rehashChain
    simp only [hr]
    exact rehashChain_total hh hN rest _ (by rw [length_writeAt, hlen])

theorem rehashAll_total {hash : α → Int → Int} {N : Int} (hh : HashInRange hash)
    (hN : 0 < N) :
    ∀ (chains array : List (List α)), array.length = N.toNat →
      ∃ array1, rehashAll hash N chains array = some array1
  | [], array, _ => ⟨array, rfl⟩
  | chain :: chains, array, hlen => by
    obtain ⟨array0, hr⟩ := rehashChain_total hh hN chain array hlen
    unfold rehashAll
    simp only [hr]
    exact rehashAll_total hh hN chains _ (by rw [(rehashChain_some _ _ _ hr).1, hlen])

/-! ## The chain scan and the unlinking walk -/

theorem findNode_none_iff {cmp : α → α → Int} {member : α} :
    ∀ {l : List α}, findNode cmp member l = none ↔ ∀ v ∈ l, cmp v member ≠ 0
  | [] => by simp [findNode]
  | v :: rest => by
    unfold findNode
    by_cases hv : cmp v member = 0
    · simp [hv]
    · rw [if_neg hv]
      have ih := @findNode_none_iff cmp member rest
      cases hf : findNode cmp member rest with
      | none =>
        rw [hf] at ih
        simpa [hv] using ih.mp rfl
      | some k =>
        rw [hf] at ih
        simp only [false_iff, reduceCtorEq] at ih ⊢
        intro hall
        exact ih fun w hw => hall w (List.mem_cons_of_mem _ hw)

theorem findNode_some {cmp : α → α → Int} {member : α} :
    ∀ {l : List α} {k : Nat}, findNode cmp member l = some k →
      ∃ v pre post, l = pre ++ v :: post ∧ pre.length = k ∧ cmp v member = 0 ∧
        (∀ w ∈ pre, cmp w member ≠ 0) ∧ unlink l k = some (v, pre ++ post)
  | [], k, h => by simp [findNode] at h
  | v :: rest, k, h => by
    unfold findNode at h
    by_cases hv : cmp v member = 0
    · rw [if_pos hv] at h
      cases h
      exact ⟨v, [], rest, rfl, rfl, hv, by simp, rfl⟩
    · rw [if_neg hv] at h
      cases hf : findNode cmp member rest with
      | none => simp [hf] at h
      | some j =>
        simp only [hf, Option.some.injEq] at h
        subst h
        obtain ⟨w, pre, post, hl, hlen, hw, hpre, hun⟩ := findNode_some hf
        refine ⟨w, v :: pre, post, by rw [hl]; rfl, by simp [hlen], hw, ?_, ?_⟩
        · intro x hx
          rcases List.mem_cons.mp hx with rfl | hx
          · exact hv
          · exact hpre x hx
        · simp [unlink, hun]

/-! ## `resize` -/

theorem double_capacity {c : Int} (h1 : 1 ≤ c) (h2 : c ≤ MAX_CAPACITY) :
    toInt32 (toLong (2 * c)) = 2 * c := by
  unfold toInt32 toLong
  unfold MAX_CAPACITY at h2
  omega

theorem toInt32_max : toInt32 MAX_CAPACITY = MAX_CAPACITY := by
  decide

theorem resize_eq {sd : SData α} (hs : Slots sd) (alloc : Bool) :
    resize sd alloc =
      if grownCapacity sd.capacity = sd.capacity then some sd
      else if alloc = false then some sd
      else
        match rehashAll sd.hash (grownCapacity sd.capacity) sd.buckets
            (List.replicate (grownCapacity sd.capacity).toNat []) with
        | none => none
        | some array =>
          some { sd with
            buckets := array
            capacity := grownCapacity sd.capacity
            load := sd.load / 2
            changes := 0
            increment := 1 / (grownCapacity sd.capacity : ℚ) } := by
  obtain ⟨h1, h2, h3⟩ := hs
  unfold resize grownCapacity
  simp only [double_capacity h1 h2, toInt32_max]
  rw [← h3, chainsUpTo_length]

theorem grownCapacity_bounds {c : Int} (h1 : 1 ≤ c) (h2 : c ≤ MAX_CAPACITY) :
    c ≤ grownCapacity c ∧ grownCapacity c ≤ MAX_CAPACITY ∧
      (grownCapacity c = c ↔ c = MAX_CAPACITY) := by
  unfold grownCapacity
  unfold MAX_CAPACITY at *
  split <;> omega

theorem sameCallbacks_refl (sd : SData α) : SameCallbacks sd sd :=
  ⟨rfl, rfl, rfl, rfl⟩

theorem sameCallbacks_trans {sd sd1 sd2 : SData α} (h1 : SameCallbacks sd sd1)
    (h2 : SameCallbacks sd1 sd2) : SameCallbacks sd sd2 :=
  ⟨h2.1.trans h1.1, h2.2.1.trans h1.2.1, h2.2.2.1.trans h1.2.2.1,
    h2.2.2.2.trans h1.2.2.2⟩

theorem resize_some {sd sd1 : SData α} {alloc : Bool} (hs : Slots sd)
    (h : resize sd alloc = some sd1) :
    SameCallbacks sd sd1 ∧ sd1.freed = sd.freed ∧ sd1.size = sd.size ∧ Slots sd1 ∧
      sd.capacity ≤ sd1.capacity ∧ (entries sd1).Perm (entries sd) ∧
      (Placed sd → Placed sd1) := by
  have hkeep : SameCallbacks sd sd ∧ sd.freed = sd.freed ∧ sd.size = sd.size ∧ Slots sd ∧
      sd.capacity ≤ sd.capacity ∧ (entries sd).Perm (entries sd) ∧
      (Placed sd → Placed sd) :=
    ⟨sameCallbacks_refl sd, rfl, rfl, hs, le_refl _, List.Perm.refl _, id⟩
  obtain ⟨hb1, hb2, hb3⟩ := grownCapacity_bounds hs.1 hs.2.1
  rw [resize_eq hs] at h
  split at h
  · cases h
    exact hkeep
  · split at h
    · cases h
      exact hkeep
    · split at h
      · cases h
      · rename_i array harr
        cases h
        obtain ⟨hlen, hperm, hpl⟩ := rehashAll_some _ _ _ harr
        refine ⟨⟨rfl, rfl, rfl, rfl⟩, rfl, rfl, ⟨?_, hb2, ?_⟩, hb1, ?_, ?_⟩
        · exact le_trans hs.1 hb1
        · simpa using hlen
        · simpa [entries] using hperm
        · intro _
          exact hpl (placedIn_replicate _ _ _)

theorem resize_total {sd : SData α} (alloc : Bool) (hs : Slots sd)
    (hh : HashInRange sd.hash) : ∃ sd1, resize sd alloc = some sd1 := by
  obtain ⟨hb1, _, _⟩ := grownCapacity_bounds hs.1 hs.2.1
  have hpos : 0 < grownCapacity sd.capacity := lt_of_lt_of_le (by decide) (le_trans hs.1 hb1)
  obtain ⟨array, harr⟩ := rehashAll_total hh hpos sd.buckets
    (List.replicate (grownCapacity sd.capacity).toNat []) (by simp)
  rw [resize_eq hs, harr]
  split
  · exact ⟨_, rfl⟩
  · split
    · exact ⟨_, rfl⟩
    · exact ⟨_, rfl⟩

/-! ## The load check of `add` -/

theorem loadCheck_some {sd sd1 : SData α} {alloc : Bool} (hs : Slots sd)
    (h : loadCheck sd alloc = some sd1) :
    SameCallbacks sd sd1 ∧ sd1.freed = sd.freed ∧ sd1.size = sd.size ∧ Slots sd1 ∧
      sd.capacity ≤ sd1.capacity ∧ (entries sd1).Perm (entries sd) ∧
      (Placed sd → Placed sd1) := by
  unfold loadCheck at h
  split at h
  · split at h
    · exact @resize_some α { sd with changes := 0 } sd1 alloc hs h
    · cases h
      exact ⟨sameCallbacks_refl sd, rfl, rfl, hs, le_refl _, List.Perm.refl _, id⟩
  · cases h
    exact ⟨sameCallbacks_refl sd, rfl, rfl, hs, le_refl _, List.Perm.refl _, id⟩

theorem loadCheck_total {sd : SData α} (alloc : Bool) (hs : Slots sd)
    (hh : HashInRange sd.hash) : ∃ sd1, loadCheck sd alloc = some sd1 := by
  unfold loadCheck
  split
  · split
    · exact @resize_total α { sd with changes := 0 } alloc hs hh
    · exact ⟨_, rfl⟩
  · exact ⟨_, rfl⟩

/-! ## `findMember` -/

theorem bucket_total {sd : SData α} (member : α) (hs : Slots sd)
    (hh : HashInRange sd.hash) :
    ∃ chain, readAt sd.buckets (sd.hash member sd.capacity) = some chain := by
  obtain ⟨h0, h1⟩ := hh member sd.capacity (by have := hs.1; omega)
  exact readAt_of_lt h0 (by have := hs.2.2; omega)

theorem mem_bucket_iff {sd : SData α} {member : α} {chain : List α} (hp : Placed sd)
    (hr : readAt sd.buckets (sd.hash member sd.capacity) = some chain) (v : α) :
    v ∈ chain ↔ v ∈ entries sd ∧ sd.hash v sd.capacity = sd.hash member sd.capacity := by
  obtain ⟨h0, _, hget⟩ := readAt_some hr
  constructor
  · intro hv
    refine ⟨mem_entries_iff.mpr ⟨_, chain, hget, hv⟩, ?_⟩
    rw [hp _ _ hget v hv, Int.toNat_of_nonneg h0]
  · rintro ⟨hv, hhash⟩
    obtain ⟨j, c, hj, hvc⟩ := mem_entries_iff.mp hv
    have hjn : (j : Int) = sd.hash member sd.capacity := by
      rw [← hp j c hj v hvc, hhash]
    have : (sd.hash member sd.capacity).toNat = j := by omega
    rw [this, hj] at hget
    cases hget
    exact hvc

theorem findMember_some {sd : SData α} {member : α} {p : Option Nat} {i : Int}
    (h : findMember sd member = some (p, i)) :
    i = sd.hash member sd.capacity ∧
      ∃ chain, readAt sd.buckets i = some chain ∧ p = findNode sd.cmp member chain := by
  unfold findMember at h
  split at h
  · cases h
  · rename_i chain hr
    cases h
    exact ⟨rfl, chain, hr, rfl⟩

theorem findMember_total {sd : SData α} (member : α) (hs : Slots sd)
    (hh : HashInRange sd.hash) :
    ∃ p, findMember sd member = some (p, sd.hash member sd.capacity) := by
  obtain ⟨chain, hr⟩ := bucket_total member hs hh
  exact ⟨findNode sd.cmp member chain, by unfold findMember; rw [hr]⟩

/-! ## `add` -/

theorem s_add_cases {sd sd2 : SData α} {member : α} {allocArray allocNode : Bool} {r : Int}
    (h : s_add sd member allocArray allocNode = some (sd2, r)) :
    ∃ sd1 chain, loadCheck sd allocArray = some sd1 ∧
      readAt sd1.buckets (sd1.hash member sd1.capacity) = some chain ∧
      ((findNode sd1.cmp member chain ≠ none ∧ sd2 = sd1 ∧ r = 0) ∨
       (findNode sd1.cmp member chain = none ∧ allocNode = false ∧ sd2 = sd1 ∧ r = 0) ∨
       (findNode sd1.cmp member chain = none ∧ allocNode = true ∧ r = 1 ∧
          sd2 = { sd1 with
            buckets := writeAt sd1.buckets (sd1.hash member sd1.capacity) (member :: chain)
            size := sd1.size + 1
            load := sd1.load + sd1.increment
            changes := sd1.changes + 1 })) := by
  unfold s_add at h
  cases hl : loadCheck sd allocArray with
  | none => simp [hl] at h
  | some sd1 =>
    simp only [hl] at h
    cases hf : findMember sd1 member with
    | none => simp [hf] at h
    | some pi =>
      obtain ⟨p, i⟩ := pi
      obtain ⟨hi, chain, hr, hp⟩ := findMember_some hf
      subst hi
      refine ⟨sd1, chain, rfl, hr, ?_⟩
      cases p with
      | some k =>
        simp only [hf, Option.some.injEq, Prod.mk.injEq] at h
        left
        exact ⟨by rw [← hp]; simp, h.1.symm, h.2.symm⟩
      | none =>
        simp only [hf] at h
        unfold insertNode at h
        cases allocNode with
        | false =>
          simp only [if_true, Option.some.injEq, Prod.mk.injEq] at h
          right; left
          exact ⟨hp.symm, rfl, h.1.symm, h.2.symm⟩
        | true =>
          simp only [hr, Bool.true_eq_false, if_false, Option.some.injEq, Prod.mk.injEq] at h
          right; right
          exact ⟨hp.symm, rfl, h.2.symm, h.1.symm⟩

theorem s_add_some {sd sd2 : SData α} {member : α} {allocArray allocNode : Bool} {r : Int}
    (hs : Slots sd) (hp : Placed sd)
    (h : s_add sd member allocArray allocNode = some (sd2, r)) :
    SameCallbacks sd sd2 ∧ sd2.freed = sd.freed ∧ Slots sd2 ∧ Placed sd2 ∧
      sd.capacity ≤ sd2.capacity ∧
      ((r = 1 ∧ allocNode = true ∧ (entries sd2).Perm (member :: entries sd) ∧
          sd2.size = sd.size + 1 ∧
          ∀ v ∈ entries sd, sd.hash v sd2.capacity = sd.hash member sd2.capacity →
            sd.cmp v member ≠ 0) ∨
       (r = 0 ∧ (entries sd2).Perm (entries sd) ∧ sd2.size = sd.size ∧
          (allocNode = false ∨
            ∃ v ∈ entries sd, sd.hash v sd2.capacity = sd.hash member sd2.capacity ∧
              sd.cmp v member = 0))) := by
  obtain ⟨sd1, chain, hl, hr, hcase⟩ := s_add_cases h
  obtain ⟨hcb, hfreed, hsize, hs1, hcap, hperm, hpl⟩ := loadCheck_some hs hl
  have hp1 := hpl hp
  have hmem := mem_bucket_iff hp1 hr
  rcases hcase with ⟨hfound, rfl, rfl⟩ | ⟨_, ha, rfl, rfl⟩ | ⟨hnone, ha, rfl, rfl⟩
  · refine ⟨hcb, hfreed, hs1, hp1, hcap, Or.inr ⟨rfl, hperm, hsize, Or.inr ?_⟩⟩
    have : ¬ ∀ v ∈ chain, sd2.cmp v member ≠ 0 := fun hall => hfound (findNode_none_iff.mpr hall)
    push_neg at this
    obtain ⟨v, hv, hcmp⟩ := this
    obtain ⟨hv1, hv2⟩ := (hmem v).mp hv
    exact ⟨v, hperm.mem_iff.mp hv1, by rw [← hcb.1]; exact hv2, by rw [← hcb.2.1]; exact hcmp⟩
  · exact ⟨hcb, hfreed, hs1, hp1, hcap, Or.inr ⟨rfl, hperm, hsize, Or.inl ha⟩⟩
  · refine ⟨hcb, hfreed, ⟨hs1.1, hs1.2.1, ?_⟩, ?_, hcap, Or.inl ⟨rfl, ha, ?_, ?_, ?_⟩⟩
    · simpa [length_writeAt] using hs1.2.2
    · apply placedIn_writeAt hr hp1
      intro w hw
      rcases List.mem_cons.mp hw with rfl | hw
      · rfl
      · exact ((hmem w).mp hw).2
    · exact (flatten_writeAt_perm hr member).trans (List.Perm.cons _ hperm)
    · simp [hsize]
    · intro v hv hhash
      have hv1 : v ∈ entries sd1 := hperm.mem_iff.mpr hv
      have hvc : v ∈ chain := (hmem v).mpr ⟨hv1, by rw [hcb.1]; exact hhash⟩
      rw [← hcb.2.1]
      exact findNode_none_iff.mp hnone v hvc

theorem s_add_total {sd : SData α} (member : α) (allocArray allocNode : Bool)
    (hs : Slots sd) (hh : HashInRange sd.hash) :
    ∃ sd2 r, s_add sd member allocArray allocNode = some (sd2, r) := by
  obtain ⟨sd1, hl⟩ := loadCheck_total allocArray hs hh
  obtain ⟨hcb, _, _, hs1, _⟩ := loadCheck_some hs hl
  obtain ⟨chain, hr⟩ := bucket_total member hs1 (by rw [hcb.1]; exact hh)
  unfold s_add findMember insertNode
  simp only [hl, hr]
  cases findNode sd1.cmp member chain with
  | none =>
    cases allocNode with
    | false => exact ⟨_, _, rfl⟩
    | true => simp [hr]
  | some k => exact ⟨_, _, rfl⟩

/-! ## `remove` -/

theorem flatten_writeAt {b : List (List α)} {i : Int} {chain : List α}
    (h : readAt b i = some chain) :
    ∃ before after, b.flatten = before ++ chain ++ after ∧
      ∀ chain1, (writeAt b i chain1).flatten = before ++ chain1 ++ after := by
  obtain ⟨pre, post, hb, _, hw⟩ := readAt_split h
  refine ⟨pre.flatten, post.flatten, ?_, ?_⟩
  · rw [hb]
    simp
  · intro chain1
    rw [hw]
    simp

theorem s_remove_cases {sd sd2 : SData α} {member : α} {r : Int}
    (h : s_remove sd member = some (sd2, r)) :
    ∃ chain, readAt sd.buckets (sd.hash member sd.capacity) = some chain ∧
      ((findNode sd.cmp member chain = none ∧ sd2 = sd ∧ r = 0) ∨
       (∃ v pre post, chain = pre ++ v :: post ∧ sd.cmp v member = 0 ∧
          (∀ w ∈ pre, sd.cmp w member ≠ 0) ∧ r = 1 ∧ removedValue sd member = some v ∧
          sd2 = { sd with
            buckets := writeAt sd.buckets (sd.hash member sd.capacity) (pre ++ post)
            size := sd.size - 1
            load := sd.load - sd.increment
            changes := sd.changes + 1
            freed := if sd.freeV then sd.freed ++ [v] else sd.freed })) := by
  unfold s_remove at h
  cases hf : findMember sd member with
  | none => simp [hf] at h
  | some pi =>
    obtain ⟨p, i⟩ := pi
    obtain ⟨hi, chain, hr, hp⟩ := findMember_some hf
    subst hi
    refine ⟨chain, hr, ?_⟩
    cases p with
    | none =>
      simp only [hf, Option.some.injEq, Prod.mk.injEq] at h
      exact Or.inl ⟨hp.symm, h.1.symm, h.2.symm⟩
    | some k =>
      obtain ⟨v, pre, post, hchain, _, hv, hpre, hun⟩ := findNode_some hp.symm
      simp only [hf, hr, hun, Option.some.injEq, Prod.mk.injEq] at h
      refine Or.inr ⟨v, pre, post, hchain, hv, hpre, h.2.symm, ?_, h.1.symm⟩
      unfold removedValue
      simp only [hf, hr, hun]

theorem s_remove_some {sd sd2 : SData α} {member : α} {r : Int}
    (hs : Slots sd) (hp : Placed sd) (h : s_remove sd member = some (sd2, r)) :
    SameCallbacks sd sd2 ∧ Slots sd2 ∧ Placed sd2 ∧ sd2.capacity = sd.capacity ∧
      ((r = 0 ∧ sd2 = sd ∧
          ∀ v ∈ entries sd, sd.hash v sd.capacity = sd.hash member sd.capacity →
            sd.cmp v member ≠ 0) ∨
       (r = 1 ∧ ∃ v, v ∈ entries sd ∧ sd.cmp v member = 0 ∧
          sd.hash v sd.capacity = sd.hash member sd.capacity ∧
          (entries sd).Perm (v :: entries sd2) ∧ sd2.size = sd.size - 1 ∧
          removedValue sd member = some v ∧
          sd2.freed = if sd.freeV then sd.freed ++ [v] else sd.freed)) := by
  obtain ⟨chain, hr, hcase⟩ := s_remove_cases h
  have hmem := mem_bucket_iff hp hr
  rcases hcase with ⟨hnone, rfl, rfl⟩ | ⟨v, pre, post, hchain, hv, _, rfl, hrv, rfl⟩
  · refine ⟨sameCallbacks_refl _, hs, hp, rfl, Or.inl ⟨rfl, rfl, ?_⟩⟩
    intro v hv hhash
    exact findNode_none_iff.mp hnone v ((hmem v).mpr ⟨hv, hhash⟩)
  · have hvc : v ∈ chain := by rw [hchain]; simp
    obtain ⟨hv1, hv2⟩ := (hmem v).mp hvc
    refine ⟨⟨rfl, rfl, rfl, rfl⟩, ⟨hs.1, hs.2.1, ?_⟩, ?_, rfl,
      Or.inr ⟨rfl, v, hv1, hv, hv2, ?_, rfl, hrv, rfl⟩⟩
    · simpa [length_writeAt] using hs.2.2
    · apply placedIn_writeAt hr hp
      intro w hw
      refine ((hmem w).mp ?_).2
      rw [hchain]
      rcases List.mem_append.mp hw with hw | hw
      · exact List.mem_append_left _ hw
      · exact List.mem_append_right _ (List.mem_cons_of_mem _ hw)
    · obtain ⟨before, after, hb, hw⟩ := flatten_writeAt hr
      simp only [entries]
      rw [hb, hw, hchain]
      simp only [List.append_assoc, List.cons_append]
      refine (List.Perm.append_left before List.perm_middle).trans ?_
      exact List.perm_middle

theorem s_remove_total {sd : SData α} (member : α) (hs : Slots sd)
    (hh : HashInRange sd.hash) : ∃ sd2 r, s_remove sd member = some (sd2, r) := by
  obtain ⟨chain, hr⟩ := bucket_total member hs hh
  unfold s_remove findMember
  simp only [hr]
  cases hf : findNode sd.cmp member chain with
  | none => exact ⟨_, _, rfl⟩
  | some k =>
    obtain ⟨v, pre, post, _, _, _, _, hun⟩ := findNode_some hf
    simp [hr, hun]

/-! ## `clear` and `contains` -/

theorem s_clear_eq {sd : SData α} (hs : Slots sd) :
    s_clear sd = some { sd with
      buckets := List.replicate sd.capacity.toNat []
      freed := if sd.freeV then sd.freed ++ entries sd else sd.freed
      size := 0
      load := 0
      changes := 0 } := by
  unfold s_clear purge
  rw [← hs.2.2, chainsUpTo_length]
  simp [entries]

theorem s_clear_some {sd sd2 : SData α} (hs : Slots sd) (h : s_clear sd = some sd2) :
    SameCallbacks sd sd2 ∧ Slots sd2 ∧ Placed sd2 ∧ sd2.capacity = sd.capacity ∧
      entries sd2 = [] ∧ sd2.size = 0 := by
  rw [s_clear_eq hs] at h
  cases h
  refine ⟨⟨rfl, rfl, rfl, rfl⟩, ⟨hs.1, hs.2.1, by simp⟩, placedIn_replicate _ _ _, rfl, ?_, rfl⟩
  simp [entries]

theorem s_contains_eq {sd : SData α} (member : α) (hs : Slots sd) (hp : Placed sd)
    (hh : HashInRange sd.hash) :
    (s_contains sd member = some 1 ∧
        ∃ v ∈ entries sd, sd.hash v sd.capacity = sd.hash member sd.capacity ∧
          sd.cmp v member = 0) ∨
      (s_contains sd member = some 0 ∧
        ∀ v ∈ entries sd, sd.hash v sd.capacity = sd.hash member sd.capacity →
          sd.cmp v member ≠ 0) := by
  obtain ⟨chain, hr⟩ := bucket_total member hs hh
  have hmem := mem_bucket_iff hp hr
  unfold s_contains findMember
  simp only [hr]
  cases hf : findNode sd.cmp member chain with
  | none =>
    right
    refine ⟨rfl, fun v hv hhash => ?_⟩
    exact findNode_none_iff.mp hf v ((hmem v).mpr ⟨hv, hhash⟩)
  | some k =>
    left
    obtain ⟨v, pre, post, hchain, _, hv, _, _⟩ := findNode_some hf
    have hvc : v ∈ chain := by rw [hchain]; simp
    obtain ⟨hv1, hv2⟩ := (hmem v).mp hvc
    exact ⟨rfl, v, hv1, hv2, hv⟩

/-! ## Construction and reachable states -/

theorem newSet_eq (capacity : Int) (loadFactor : ℚ) (hash : α → Int → Int)
    (cmp : α → α → Int) (freeV : Bool) :
    newSet capacity loadFactor hash cmp freeV true true true =
      some
        { capacity :=
            if (if capacity > 0 then capacity else DEFAULT_CAPACITY) > MAX_CAPACITY
            then MAX_CAPACITY else (if capacity > 0 then capacity else DEFAULT_CAPACITY)
          loadFactor := if loadFactor > 1 / 1000000 then loadFactor else DEFAULT_LOAD_FACTOR
          size := 0
          load := 0
          changes := 0
          increment :=
            1 / (((if (if capacity > 0 then capacity else DEFAULT_CAPACITY) > MAX_CAPACITY
              then MAX_CAPACITY else (if capacity > 0 then capacity else DEFAULT_CAPACITY)) : Int) : ℚ)
          hash := hash
          cmp := cmp
          freeV := freeV
          buckets :=
            List.replicate
              (if (if capacity > 0 then capacity else DEFAULT_CAPACITY) > MAX_CAPACITY
                then MAX_CAPACITY else (if capacity > 0 then capacity else DEFAULT_CAPACITY)).toNat []
          freed := [] } := by
  simp [newSet]

theorem initial_capacity_bounds (capacity : Int) :
    1 ≤ (if (if capacity > 0 then capacity else DEFAULT_CAPACITY) > MAX_CAPACITY
          then MAX_CAPACITY else (if capacity > 0 then capacity else DEFAULT_CAPACITY)) ∧
      (if (if capacity > 0 then capacity else DEFAULT_CAPACITY) > MAX_CAPACITY
          then MAX_CAPACITY else (if capacity > 0 then capacity else DEFAULT_CAPACITY)) ≤
        MAX_CAPACITY := by
  unfold DEFAULT_CAPACITY MAX_CAPACITY
  split <;> split <;> omega

theorem hashSet_some {freeValue : Bool} {cmpFxn : α → α → Int} {capacity : Int}
    {loadFactor : ℚ} {hashFxn : α → Int → Int} {sd0 : SData α}
    (h : HashSet freeValue cmpFxn capacity loadFactor hashFxn true true true = some sd0) :
    Slots sd0 ∧ Placed sd0 ∧ entries sd0 = [] ∧ sd0.size = 0 := by
  unfold HashSet at h
  rw [newSet_eq] at h
  cases h
  obtain ⟨h1, h2⟩ := initial_capacity_bounds capacity
  refine ⟨⟨h1, h2, by simp⟩, placedIn_replicate _ _ _, by simp [entries], rfl⟩

theorem s_contains_some {sd : SData α} {member : α} {r : Int}
    (h : s_contains sd member = some r) : r = 0 ∨ r = 1 := by
  unfold s_contains at h
  split at h
  · cases h
  · cases h
    exact Or.inl rfl
  · cases h
    exact Or.inr rfl

theorem exec_some {sd sd1 : SData α} {c : Call α} {r : Option Int} (hs : Slots sd)
    (hp : Placed sd) (h : exec sd c = some (sd1, r)) :
    SameCallbacks sd sd1 ∧ Slots sd1 ∧ Placed sd1 ∧ sd.capacity ≤ sd1.capacity := by
  have hkeep : SameCallbacks sd sd ∧ Slots sd ∧ Placed sd ∧ sd.capacity ≤ sd.capacity :=
    ⟨sameCallbacks_refl sd, hs, hp, le_refl _⟩
  cases c with
  | add member allocArray allocNode =>
    simp only [exec] at h
    split at h
    · cases h
    · rename_i sd2 r2 hadd
      cases h
      obtain ⟨h1, _, h2, h3, h4, _⟩ := s_add_some hs hp hadd
      exact ⟨h1, h2, h3, h4⟩
  | remove member =>
    simp only [exec] at h
    split at h
    · cases h
    · rename_i sd2 r2 hrem
      cases h
      obtain ⟨h1, h2, h3, h4, _⟩ := s_remove_some hs hp hrem
      exact ⟨h1, h2, h3, le_of_eq h4.symm⟩
  | clear =>
    simp only [exec] at h
    split at h
    · cases h
    · rename_i sd2 hclr
      cases h
      obtain ⟨h1, h2, h3, h4, _⟩ := s_clear_some hs hclr
      exact ⟨h1, h2, h3, le_of_eq h4.symm⟩
  | contains member =>
    simp only [exec] at h
    split at h
    · cases h
    · cases h
      exact hkeep
  | isEmpty =>
    simp only [exec, Option.some.injEq, Prod.mk.injEq] at h
    rw [← h.1]
    exact hkeep
  | size =>
    simp only [exec, Option.some.injEq, Prod.mk.injEq] at h
    rw [← h.1]
    exact hkeep

theorem exec_total {sd : SData α} (c : Call α) (hs : Slots sd) (hh : HashInRange sd.hash) :
    ∃ sd1 r, exec sd c = some (sd1, r) := by
  cases c with
  | add member allocArray allocNode =>
    obtain ⟨sd2, r, h⟩ := s_add_total member allocArray allocNode hs hh
    exact ⟨sd2, some r, by simp [exec, h]⟩
  | remove member =>
    obtain ⟨sd2, r, h⟩ := s_remove_total member hs hh
    exact ⟨sd2, some r, by simp [exec, h]⟩
  | clear =>
    cases hc : s_clear sd with
    | none =>
      rw [s_clear_eq hs] at hc
      cases hc
    | some sd2 => exact ⟨sd2, none, by simp [exec, hc]⟩
  | contains member =>
    obtain ⟨p, h⟩ := findMember_total member hs hh
    cases p with
    | none => exact ⟨sd, some 0, by simp [exec, s_contains, h]⟩
    | some k => exact ⟨sd, some 1, by simp [exec, s_contains, h]⟩
  | isEmpty => exact ⟨_, _, rfl⟩
  | size => exact ⟨_, _, rfl⟩

theorem execAll_cons {sd sd2 : SData α} {c : Call α} {cs : List (Call α)}
    {rets : List (Option Int)} (h : execAll sd (c :: cs) = some (sd2, rets)) :
    ∃ sd1 r rs, exec sd c = some (sd1, r) ∧ execAll sd1 cs = some (sd2, rs) ∧
      rets = r :: rs := by
  simp only [execAll] at h
  split at h
  · cases h
  · rename_i sd1 r hex
    split at h
    · cases h
    · rename_i sd3 rs hall
      cases h
      exact ⟨sd1, r, rs, hex, hall, rfl⟩

theorem execAll_invariant (P : SData α → Prop)
    (hstep : ∀ sd c sd1 r, P sd → exec sd c = some (sd1, r) → P sd1) :
    ∀ (calls : List (Call α)) (sd sd2 : SData α) (rets : List (Option Int)),
      P sd → execAll sd calls = some (sd2, rets) → P sd2
  | [], sd, sd2, rets, hP, h => by
    simp only [execAll, Option.some.injEq, Prod.mk.injEq] at h
    rw [← h.1]
    exact hP
  | c :: cs, sd, sd2, rets, hP, h => by
    obtain ⟨sd1, r, rs, hex, hall, _⟩ := execAll_cons h
    exact execAll_invariant P hstep cs sd1 sd2 rs (hstep sd c sd1 r hP hex) hall

theorem reachable_wellFormed {sd : SData α} (h : Reachable sd) : Slots sd ∧ Placed sd := by
  obtain ⟨fv, cmpFxn, capacity, lf, hashFxn, sd0, calls, rets, h0, hrun⟩ := h
  obtain ⟨hs0, hp0, _, _⟩ := hashSet_some h0
  refine execAll_invariant (fun s => Slots s ∧ Placed s) ?_ calls sd0 sd rets ⟨hs0, hp0⟩ hrun
  intro s c s1 r hP hex
  obtain ⟨_, h2, h3, _⟩ := exec_some hP.1 hP.2 hex
  exact ⟨h2, h3⟩

/-! ## The example hash and comparator -/

theorem modHash_inRange : HashInRange modHash := by
  intro x n hn
  exact ⟨Int.emod_nonneg x (by omega), Int.emod_lt_of_pos x hn⟩

theorem numCmp_eq_zero {x y : Int} : numCmp x y = 0 ↔ x = y := by
  unfold numCmp
  split <;> simp [*]

theorem numCmp_equivalence : CmpEquivalence numCmp := by
  refine ⟨fun x => numCmp_eq_zero.mpr rfl, fun x y h => ?_, fun x y z h1 h2 => ?_⟩
  · exact numCmp_eq_zero.mpr (numCmp_eq_zero.mp h).symm
  · exact numCmp_eq_zero.mpr ((numCmp_eq_zero.mp h1).trans (numCmp_eq_zero.mp h2))

theorem modHash_consistent : HashConsistent modHash numCmp := by
  intro x y n h
  rw [numCmp_eq_zero.mp h]

theorem demoFresh_constructed :
    HashSet false numCmp 2 (1 / 2) modHash true true true = some demoFresh := by
  unfold HashSet
  rw [newSet_eq]
  have h : (1 / 2 : ℚ) > 1 / 1000000 := by norm_num
  simp only [if_pos h]
  rfl

theorem demoFresh_reachable : Reachable demoFresh :=
  ⟨false, numCmp, 2, 1 / 2, modHash, demoFresh, [], [], demoFresh_constructed, rfl⟩

theorem demoOne_added : s_add demoFresh 1 true true = some (demoOne, 1) := by
  rfl

/-! ## Round-trip membership -/

theorem contains_of_mem {sd : SData α} {e : α} (hs : Slots sd) (hp : Placed sd)
    (hh : HashInRange sd.hash) (hrefl : sd.cmp e e = 0) (he : e ∈ entries sd) :
    s_contains sd e = some 1 := by
  rcases s_contains_eq e hs hp hh with ⟨h, _⟩ | ⟨_, hall⟩
  · exact h
  · exact absurd hrefl (hall e he rfl)

theorem keepsMember_run {e : α} :
    ∀ (calls : List (Call α)) (sd : SData α), Slots sd → Placed sd → HashInRange sd.hash →
      sd.cmp e e = 0 → e ∈ entries sd → keepsMember e sd calls = true →
      ∃ sd2 rets, execAll sd calls = some (sd2, rets) ∧ s_contains sd2 e = some 1
  | [], sd, hs, hp, hh, hrefl, he, _ =>
    ⟨sd, [], rfl, contains_of_mem hs hp hh hrefl he⟩
  | c :: cs, sd, hs, hp, hh, hrefl, he, hk => by
    obtain ⟨sd1, r, hex⟩ := exec_total c hs hh
    obtain ⟨hcb, hs1, hp1, _⟩ := exec_some hs hp hex
    simp only [keepsMember, hex, Bool.and_eq_true] at hk
    obtain ⟨hk1, hk2⟩ := hk
    have he1 : e ∈ entries sd1 := by
      cases c with
      | add member allocArray allocNode =>
        simp only [exec] at hex
        split at hex
        · cases hex
        · rename_i sd3 r3 hadd
          cases hex
          obtain ⟨_, _, _, _, _, hcase⟩ := s_add_some hs hp hadd
          rcases hcase with ⟨_, _, hperm, _⟩ | ⟨_, hperm, _⟩
          · exact hperm.mem_iff.mpr (List.mem_cons_of_mem _ he)
          · exact hperm.mem_iff.mpr he
      | remove member =>
        simp only [exec] at hex
        split at hex
        · cases hex
        · rename_i sd3 r3 hrem
          cases hex
          obtain ⟨_, _, _, _, hcase⟩ := s_remove_some hs hp hrem
          rcases hcase with ⟨_, rfl, _⟩ | ⟨_, v, _, _, _, hperm, _, hrv, _⟩
          · exact he
          · simp only [hrv, Bool.or_eq_true, bne_iff_ne, ne_eq] at hk1
            rcases List.mem_cons.mp (hperm.mem_iff.mp he) with hev | hev
            · subst hev
              rcases hk1 with h | h <;> exact absurd hrefl h
            · exact hev
      | clear => simp at hk1
      | contains member =>
        simp only [exec] at hex
        split at hex
        · cases hex
        · cases hex
          exact he
      | isEmpty =>
        simp only [exec, Option.some.injEq, Prod.mk.injEq] at hex
        rw [← hex.1]
        exact he
      | size =>
        simp only [exec, Option.some.injEq, Prod.mk.injEq] at hex
        rw [← hex.1]
        exact he
    obtain ⟨sd2, rets, hrun, hc⟩ := keepsMember_run cs sd1 hs1 hp1 (by rw [hcb.1]; exact hh)
      (by rw [hcb.2.1]; exact hrefl) he1 hk2
    exact ⟨sd2, r :: rets, by simp [execAll, hex, hrun], hc⟩

/-- C1 (round-trip membership): in a reachable state, with a hash that stays in
`[0, n)` and a reflexive comparator, when `add(e)` returns 1 then `contains(e)` returns 1
right afterwards, and also after every further sequence of calls that does not call
`clear` and in which no `remove` unlinks an entry equal to `e`; every call of such a
sequence returns. -/
theorem round_trip_membership (sd sd1 : SData α) (e : α) (allocArray allocNode : Bool)
    (hreach : Reachable sd) (hh : HashInRange sd.hash) (hrefl : ∀ x, sd.cmp x x = 0)
    (hadd : s_add sd e allocArray allocNode = some (sd1, 1)) :
    s_contains sd1 e = some 1 ∧
      ∀ calls : List (Call α), keepsMember e sd1 calls = true →
        ∃ sd2 rets, execAll sd1 calls = some (sd2, rets) ∧ s_contains sd2 e = some 1 := by
  obtain ⟨hs, hp⟩ := reachable_wellFormed hreach
  obtain ⟨hcb, _, hs1, hp1, _, hcase⟩ := s_add_some hs hp hadd
  have he : e ∈ entries sd1 := by
    rcases hcase with ⟨_, _, hperm, _⟩ | ⟨h0, _⟩
    · exact hperm.mem_iff.mpr (List.mem_cons_self _ _)
    · exact absurd h0 (by decide)
  have hh1 : HashInRange sd1.hash := by rw [hcb.1]; exact hh
  have hr1 : sd1.cmp e e = 0 := by rw [hcb.2.1]; exact hrefl e
  refine ⟨contains_of_mem hs1 hp1 hh1 hr1 he, fun calls hk => ?_⟩
  exact keepsMember_run calls sd1 hs1 hp1 hh1 hr1 he hk

/-- Witness of C1: on the two-bucket example set, `add(1)` succeeds and `1` is still
found after `add(3)`, `add(2)`, `remove(3)`. -/
theorem round_trip_membership_witness :
    s_contains demoOne 1 = some 1 ∧
      ∃ sd2 rets,
        execAll demoOne [Call.add 3 true true, Call.add 2 true true, Call.remove 3] =
          some (sd2, rets) ∧ s_contains sd2 1 = some 1 :=
  have h := round_trip_membership demoFresh demoOne 1 true true demoFresh_reachable
    modHash_inRange (fun x => numCmp_eq_zero.mpr rfl) demoOne_added
  ⟨h.1, h.2 [Call.add 3 true true, Call.add 2 true true, Call.remove 3] (by decide)⟩

theorem demoThree_reachable : Reachable demoThree :=
  ⟨false, numCmp, 2, 1 / 2, modHash, demoFresh,
    [Call.add 1 true true, Call.add 3 true true, Call.add 2 true true],
    [some 1, some 1, some 1], demoFresh_constructed, rfl⟩

theorem execAll_wellFormed {sd0 sd : SData α} {calls : List (Call α)}
    {rets : List (Option Int)} (hs : Slots sd0) (hp : Placed sd0)
    (h : execAll sd0 calls = some (sd, rets)) :
    SameCallbacks sd0 sd ∧ Slots sd ∧ Placed sd ∧ sd0.capacity ≤ sd.capacity := by
  refine execAll_invariant
    (fun s => SameCallbacks sd0 s ∧ Slots s ∧ Placed s ∧ sd0.capacity ≤ s.capacity) ?_
    calls sd0 sd rets ⟨sameCallbacks_refl _, hs, hp, le_refl _⟩ h
  intro s c s1 r hP hex
  obtain ⟨h1, h2, h3, h4⟩ := exec_some hP.2.1 hP.2.2.1 hex
  exact ⟨sameCallbacks_trans hP.1 h1, h2, h3, le_trans hP.2.2.2 h4⟩

/-! ## Uniqueness -/

theorem exec_unique {sd sd1 : SData α} {c : Call α} {r : Option Int} (hs : Slots sd)
    (hp : Placed sd) (hsymm : ∀ x y, sd.cmp x y = 0 → sd.cmp y x = 0)
    (hcons : HashConsistent sd.hash sd.cmp) (hu : Unique sd)
    (h : exec sd c = some (sd1, r)) : Unique sd1 := by
  have hsym : ∀ {x y : α}, sd.cmp x y ≠ 0 → sd.cmp y x ≠ 0 :=
    fun hxy hyx => hxy (hsymm _ _ hyx)
  cases c with
  | add member allocArray allocNode =>
    simp only [exec] at h
    split at h
    · cases h
    · rename_i sd2 r2 hadd
      cases h
      obtain ⟨hcb, _, _, _, _, hcase⟩ := s_add_some hs hp hadd
      unfold Unique at hu ⊢
      rw [hcb.2.1]
      rcases hcase with ⟨_, _, hperm, _, hnew⟩ | ⟨_, hperm, _⟩
      · refine List.Pairwise.perm ?_ hperm.symm hsym
        refine List.pairwise_cons.mpr ⟨fun v hv hmv => ?_, hu⟩
        have hvm := hsymm _ _ hmv
        exact hnew v hv (hcons v member _ hvm) hvm
      · exact List.Pairwise.perm hu hperm.symm hsym
  | remove member =>
    simp only [exec] at h
    split at h
    · cases h
    · rename_i sd2 r2 hrem
      cases h
      obtain ⟨hcb, _, _, _, hcase⟩ := s_remove_some hs hp hrem
      unfold Unique at hu ⊢
      rw [hcb.2.1]
      rcases hcase with ⟨_, rfl, _⟩ | ⟨_, v, _, _, _, hperm, _⟩
      · exact hu
      · exact (List.Pairwise.perm hu hperm hsym).of_cons
  | clear =>
    simp only [exec] at h
    split at h
    · cases h
    · rename_i sd2 hclr
      cases h
      obtain ⟨_, _, _, _, hnil, _⟩ := s_clear_some hs hclr
      unfold Unique
      rw [hnil]
      exact List.Pairwise.nil
  | contains member =>
    simp only [exec] at h
    split at h
    · cases h
    · cases h
      exact hu
  | isEmpty =>
    simp only [exec, Option.some.injEq, Prod.mk.injEq] at h
    rw [← h.1]
    exact hu
  | size =>
    simp only [exec, Option.some.injEq, Prod.mk.injEq] at h
    rw [← h.1]
    exact hu

theorem reachable_unique {sd : SData α} (hreach : Reachable sd)
    (hsymm : ∀ x y, sd.cmp x y = 0 → sd.cmp y x = 0)
    (hcons : HashConsistent sd.hash sd.cmp) : Unique sd := by
  obtain ⟨fv, cmpFxn, capacity, lf, hashFxn, sd0, calls, rets, h0, hrun⟩ := hreach
  obtain ⟨hs0, hp0, hnil, _⟩ := hashSet_some h0
  obtain ⟨hcb, _⟩ := execAll_wellFormed hs0 hp0 hrun
  have hstart : SameCallbacks sd0 sd0 ∧ Slots sd0 ∧ Placed sd0 ∧ Unique sd0 := by
    refine ⟨sameCallbacks_refl _, hs0, hp0, ?_⟩
    unfold Unique
    rw [hnil]
    exact List.Pairwise.nil
  refine (execAll_invariant
    (fun s => SameCallbacks sd0 s ∧ Slots s ∧ Placed s ∧ Unique s) ?_
    calls sd0 sd rets hstart hrun).2.2.2
  intro s c s1 r hP hex
  obtain ⟨hc, hs, hp, hu⟩ := hP
  obtain ⟨h1, h2, h3, _⟩ := exec_some hs hp hex
  have hcs : s.cmp = sd.cmp := hc.2.1.trans hcb.2.1.symm
  have hhs : s.hash = sd.hash := hc.1.trans hcb.1.symm
  refine ⟨sameCallbacks_trans hc h1, h2, h3, exec_unique hs hp ?_ ?_ hu hex⟩
  · rw [hcs]
    exact hsymm
  · rw [hcs, hhs]
    exact hcons

/-- C2 (uniqueness invariant): with a comparator that is an equivalence relation and
a hash that sends equal elements to the same bucket for every bucket count, in every
reachable state two entries at distinct places of the table never compare equal. -/
theorem uniqueness_invariant (sd : SData α) (hreach : Reachable sd)
    (hequiv : CmpEquivalence sd.cmp) (hcons : HashConsistent sd.hash sd.cmp)
    (i j : Nat) (a b : α) (hij : i ≠ j) (hi : (entries sd)[i]? = some a)
    (hj : (entries sd)[j]? = some b) : sd.cmp a b ≠ 0 := by
  have hu := reachable_unique hreach hequiv.2.1 hcons
  unfold Unique at hu
  rw [List.pairwise_iff_getElem] at hu
  obtain ⟨hi1, hi2⟩ := List.getElem?_eq_some.mp hi
  obtain ⟨hj1, hj2⟩ := List.getElem?_eq_some.mp hj
  rcases Nat.lt_or_gt_of_ne hij with hlt | hgt
  · have := hu i j hi1 hj1 hlt
    rwa [hi2, hj2] at this
  · have := hu j i hj1 hi1 hgt
    rw [hi2, hj2] at this
    exact fun hab => this (hequiv.2.1 _ _ hab)

/-- Witness of C2: in the example set holding 2, 3 and 1, the entries at places 1 and 2
of the traversal do not compare equal. -/
theorem uniqueness_invariant_witness : demoThree.cmp 3 1 ≠ 0 :=
  uniqueness_invariant demoThree demoThree_reachable numCmp_equivalence modHash_consistent
    1 2 3 1 (by decide) rfl rfl

/-! ## Duplicate insert -/

/-- C3 (duplicate insert): in a reachable state, with equal elements hashing
identically, when some stored entry `v` has `cmp(v, e) == 0` a call `add(e)` that
returns does return 0, keeps `size()` and keeps the stored elements as a multiset; and
with a hash that stays in `[0, n)` the call does return. -/
theorem duplicate_insert (sd : SData α) (e : α) (allocArray allocNode : Bool)
    (hreach : Reachable sd) (hcons : HashConsistent sd.hash sd.cmp)
    (hdup : ∃ v ∈ entries sd, sd.cmp v e = 0) :
    (∀ sd1 r, s_add sd e allocArray allocNode = some (sd1, r) →
        r = 0 ∧ s_size sd1 = s_size sd ∧ (entries sd1).Perm (entries sd)) ∧
      (HashInRange sd.hash →
        ∃ sd1, s_add sd e allocArray allocNode = some (sd1, 0) ∧ s_size sd1 = s_size sd ∧
          (entries sd1).Perm (entries sd)) := by
  obtain ⟨hs, hp⟩ := reachable_wellFormed hreach
  have hpart : ∀ sd1 r, s_add sd e allocArray allocNode = some (sd1, r) →
      r = 0 ∧ s_size sd1 = s_size sd ∧ (entries sd1).Perm (entries sd) := by
    intro sd1 r hadd
    obtain ⟨_, _, _, _, _, hcase⟩ := s_add_some hs hp hadd
    rcases hcase with ⟨_, _, _, _, hnew⟩ | ⟨h0, hperm, hsize, _⟩
    · obtain ⟨v, hv, hve⟩ := hdup
      exact absurd hve (hnew v hv (hcons v e _ hve))
    · exact ⟨h0, hsize, hperm⟩
  refine ⟨hpart, fun hh => ?_⟩
  obtain ⟨sd1, r, hadd⟩ := s_add_total e allocArray allocNode hs hh
  obtain ⟨h0, hsize, hperm⟩ := hpart sd1 r hadd
  subst h0
  exact ⟨sd1, hadd, hsize, hperm⟩

/-- Witness of C3: `add(3)` on the example set that already holds 3. -/
theorem duplicate_insert_witness :
    ∃ sd1, s_add demoThree 3 true true = some (sd1, 0) ∧ s_size sd1 = s_size demoThree ∧
      (entries sd1).Perm (entries demoThree) :=
  (duplicate_insert demoThree 3 true true demoThree_reachable modHash_consistent
    ⟨3, by decide, rfl⟩).2 modHash_inRange

/-! ## Size accounting -/

theorem exec_counted {sd sd1 : SData α} {c : Call α} {r : Option Int} (hs : Slots sd)
    (hp : Placed sd) (hc : sd.size = ((entries sd).length : Int))
    (h : exec sd c = some (sd1, r)) : sd1.size = ((entries sd1).length : Int) := by
  cases c with
  | add member allocArray allocNode =>
    simp only [exec] at h
    split at h
    · cases h
    · rename_i sd2 r2 hadd
      cases h
      obtain ⟨_, _, _, _, _, hcase⟩ := s_add_some hs hp hadd
      rcases hcase with ⟨_, _, hperm, hsize, _⟩ | ⟨_, hperm, hsize, _⟩
      · rw [hsize, hc, hperm.length_eq]
        simp
      · rw [hsize, hc, hperm.length_eq]
  | remove member =>
    simp only [exec] at h
    split at h
    · cases h
    · rename_i sd2 r2 hrem
      cases h
      obtain ⟨_, _, _, _, hcase⟩ := s_remove_some hs hp hrem
      rcases hcase with ⟨_, rfl, _⟩ | ⟨_, v, _, _, _, hperm, hsize, _⟩
      · exact hc
      · rw [hsize, hc, hperm.length_eq]
        simp
  | clear =>
    simp only [exec] at h
    split at h
    · cases h
    · rename_i sd2 hclr
      cases h
      obtain ⟨_, _, _, _, hnil, hsize⟩ := s_clear_some hs hclr
      rw [hsize, hnil]
      rfl
  | contains member =>
    simp only [exec] at h
    split at h
    · cases h
    · cases h
      exact hc
  | isEmpty =>
    simp only [exec, Option.some.injEq, Prod.mk.injEq] at h
    rw [← h.1]
    exact hc
  | size =>
    simp only [exec, Option.some.injEq, Prod.mk.injEq] at h
    rw [← h.1]
    exact hc

theorem execAll_counted {sd0 sd : SData α} {calls : List (Call α)}
    {rets : List (Option Int)} (hs : Slots sd0) (hp : Placed sd0)
    (hc : sd0.size = ((entries sd0).length : Int))
    (h : execAll sd0 calls = some (sd, rets)) : sd.size = ((entries sd).length : Int) := by
  refine (execAll_invariant
    (fun s => Slots s ∧ Placed s ∧ s.size = ((entries s).length : Int)) ?_
    calls sd0 sd rets ⟨hs, hp, hc⟩ h).2.2
  intro s c s1 r hP hex
  obtain ⟨_, h2, h3, _⟩ := exec_some hP.1 hP.2.1 hex
  exact ⟨h2, h3, exec_counted hP.1 hP.2.1 hP.2.2 hex⟩

theorem reachable_counted {sd : SData α} (hreach : Reachable sd) :
    sd.size = ((entries sd).length : Int) := by
  obtain ⟨fv, cmpFxn, capacity, lf, hashFxn, sd0, calls, rets, h0, hrun⟩ := hreach
  obtain ⟨hs0, hp0, hnil, hsize⟩ := hashSet_some h0
  exact execAll_counted hs0 hp0 (by rw [hsize, hnil]; rfl) hrun

/-- C4 (size accounting): in every reachable state the loop over the buckets below
`capacity` visits exactly the chains of the bucket array, `size()` equals the number of
entries on those chains, and it is not negative. -/
theorem size_accounting (sd : SData α) (hreach : Reachable sd) :
    chainsUpTo sd.buckets sd.capacity.toNat = some sd.buckets ∧
      s_size sd = ((entries sd).length : Int) ∧ 0 ≤ s_size sd := by
  obtain ⟨hs, _⟩ := reachable_wellFormed hreach
  have hc := reachable_counted hreach
  refine ⟨?_, hc, ?_⟩
  · rw [← hs.2.2]
    exact chainsUpTo_length _
  · unfold s_size
    rw [hc]
    exact Int.natCast_nonneg _

/-- Witness of C4: the example set holding 2, 3 and 1 has size 3. -/
theorem size_accounting_witness :
    chainsUpTo demoThree.buckets demoThree.capacity.toNat = some demoThree.buckets ∧
      s_size demoThree = ((entries demoThree).length : Int) ∧ 0 ≤ s_size demoThree :=
  size_accounting demoThree demoThree_reachable

/-! ## `resize` preserves membership -/

theorem s_contains_consistent {sd : SData α} (member : α) (hs : Slots sd) (hp : Placed sd)
    (hh : HashInRange sd.hash) (hcons : HashConsistent sd.hash sd.cmp) :
    (s_contains sd member = some 1 ∧ ∃ v ∈ entries sd, sd.cmp v member = 0) ∨
      (s_contains sd member = some 0 ∧ ∀ v ∈ entries sd, sd.cmp v member ≠ 0) := by
  rcases s_contains_eq member hs hp hh with ⟨h, v, hv, _, hvm⟩ | ⟨h, hall⟩
  · exact Or.inl ⟨h, v, hv, hvm⟩
  · exact Or.inr ⟨h, fun v hv hvm => hall v hv (hcons v member _ hvm) hvm⟩

/-- C5 (resize preserves membership): for a state whose capacity lies between one and
the maximum, whose bucket array has `capacity` slots and whose entries satisfy the
bucket-placement invariant, with a hash that stays in `[0, n)` and is consistent with the
comparator, `resize` returns, keeps the stored elements as a multiset, keeps the size,
and `contains(x)` gives the same answer after it as before, for every `x`. -/
theorem resize_preserves_membership (sd : SData α) (alloc : Bool) (hs : Slots sd)
    (hp : Placed sd) (hh : HashInRange sd.hash) (hcons : HashConsistent sd.hash sd.cmp) :
    ∃ sd1, resize sd alloc = some sd1 ∧ (entries sd1).Perm (entries sd) ∧
      s_size sd1 = s_size sd ∧ ∀ x, s_contains sd1 x = s_contains sd x := by
  obtain ⟨sd1, hres⟩ := resize_total alloc hs hh
  obtain ⟨hcb, _, hsize, hs1, _, hperm, hpl⟩ := resize_some hs hres
  refine ⟨sd1, hres, hperm, hsize, fun x => ?_⟩
  have hh1 : HashInRange sd1.hash := by rw [hcb.1]; exact hh
  have hcons1 : HashConsistent sd1.hash sd1.cmp := by rw [hcb.1, hcb.2.1]; exact hcons
  rcases s_contains_consistent x hs hp hh hcons with ⟨h, v, hv, hvx⟩ | ⟨h, hall⟩ <;>
    rcases s_contains_consistent x hs1 (hpl hp) hh1 hcons1 with ⟨h1, w, hw, hwx⟩ | ⟨h1, hall1⟩
  · rw [h, h1]
  · exact absurd (by rw [hcb.2.1]; exact hvx) (hall1 v (hperm.mem_iff.mpr hv))
  · exact absurd (by rw [← hcb.2.1]; exact hwx) (hall w (hperm.mem_iff.mp hw))
  · rw [h, h1]

/-- Witness of C5: `resize` of the example set holding 2, 3 and 1. -/
theorem resize_preserves_membership_witness :
    ∃ sd1, resize demoThree true = some sd1 ∧ (entries sd1).Perm (entries demoThree) ∧
      s_size sd1 = s_size demoThree ∧ ∀ x, s_contains sd1 x = s_contains demoThree x :=
  resize_preserves_membership demoThree true (reachable_wellFormed demoThree_reachable).1
    (reachable_wellFormed demoThree_reachable).2 modHash_inRange modHash_consistent

/-! ## Snapshot fidelity -/

theorem set_length_append (pre post : List (Option α)) (x y : Option α) :
    (pre ++ x :: post).set pre.length y = pre ++ y :: post := by
  induction pre with
  | nil => rfl
  | cons a pre ih => simp [List.set, ih]

theorem fillArray_append :
    ∀ (l : List α) (pre : List (Option α)),
      fillArray l (pre ++ List.replicate l.length none) pre.length = some (pre ++ l.map some)
  | [], pre => by simp [fillArray]
  | v :: rest, pre => by
    have hlt : pre.length < (pre ++ List.replicate (v :: rest).length none).length := by
      simp
    unfold fillArray
    rw [if_pos hlt]
    have hset : (pre ++ List.replicate (v :: rest).length none).set pre.length (some v) =
        (pre ++ [some v]) ++ List.replicate rest.length none := by
      rw [List.length_cons, List.replicate_succ, set_length_append]
      simp
    have hlen : pre.length + 1 = (pre ++ [some v]).length := by simp
    rw [hset, hlen, fillArray_append rest (pre ++ [some v])]
    simp

theorem s_toArray_eq {sd : SData α} (hs : Slots sd)
    (hc : sd.size = ((entries sd).length : Int)) :
    (entries sd = [] → ∀ alloc, s_toArray sd alloc = some none) ∧
      (entries sd ≠ [] →
        s_toArray sd true = some (some ((entries sd).map some, ((entries sd).length : Int)))) := by
  constructor
  · intro hnil alloc
    have h0 : ¬ sd.size > 0 := by
      rw [hc, hnil]
      simp
    unfold s_toArray valueArray
    rw [if_neg h0]
  · intro hne
    have hpos : sd.size > 0 := by
      rw [hc]
      have : 0 < (entries sd).length := List.length_pos.mpr hne
      omega
    have hfill := fillArray_append (entries sd) []
    simp only [List.nil_append, List.length_nil] at hfill
    unfold s_toArray valueArray
    rw [if_pos hpos]
    have hchains : chainsUpTo sd.buckets sd.capacity.toNat = some sd.buckets := by
      rw [← hs.2.2]
      exact chainsUpTo_length _
    have hn : sd.size.toNat = (entries sd).length := by
      rw [hc]
      simp
    simp only [hchains, hn, Bool.true_eq_false, if_false]
    unfold entries at hfill hc ⊢
    rw [hfill, hc]

theorem onlyAdds_entries :
    ∀ (calls : List (Call α)) (sd0 sd : SData α) (rets : List (Option Int)),
      onlyAdds calls = true → Slots sd0 → Placed sd0 →
      execAll sd0 calls = some (sd, rets) →
      (entries sd).Perm (inserted calls rets ++ entries sd0)
  | [], sd0, sd, rets, _, _, _, h => by
    simp only [execAll, Option.some.injEq, Prod.mk.injEq] at h
    rw [← h.1, ← h.2]
    exact List.Perm.refl _
  | Call.add member allocArray allocNode :: cs, sd0, sd, rets, ha, hs, hp, h => by
    obtain ⟨sd1, r, rs, hex, hall, hrets⟩ := execAll_cons h
    obtain ⟨_, hs1, hp1, _⟩ := exec_some hs hp hex
    have ih := onlyAdds_entries cs sd1 sd rs (by simpa [onlyAdds] using ha) hs1 hp1 hall
    simp only [exec] at hex
    split at hex
    · cases hex
    · rename_i sd2 r2 hadd
      cases hex
      obtain ⟨_, _, _, _, _, hcase⟩ := s_add_some hs hp hadd
      subst hrets
      rcases hcase with ⟨rfl, _, hperm, _⟩ | ⟨rfl, hperm, _⟩
      · simp only [inserted, if_true, List.cons_append]
        refine ih.trans ((List.Perm.append_left _ hperm).trans ?_)
        exact List.perm_middle
      · have h01 : ¬ (some (0 : Int) = some 1) := by decide
        simp only [inserted, if_neg h01]
        exact ih.trans (List.Perm.append_left _ hperm)
  | Call.remove _ :: _, _, _, _, ha, _, _, _ => by simp [onlyAdds] at ha
  | Call.clear :: _, _, _, _, ha, _, _, _ => by simp [onlyAdds] at ha
  | Call.contains _ :: _, _, _, _, ha, _, _, _ => by simp [onlyAdds] at ha
  | Call.isEmpty :: _, _, _, _, ha, _, _, _ => by simp [onlyAdds] at ha
  | Call.size :: _, _, _, _, ha, _, _, _ => by simp [onlyAdds] at ha

/-- C6 (snapshot fidelity): for a set obtained from a freshly constructed one by `add`
calls only, of which `N` returned 1: when `N = 0`, `toArray` returns `NULL`; when
`N > 0` and the array can be allocated, `toArray` stores `N` in `*len` and returns an
array of `N` slots, all written, holding a permutation of the `N` inserted elements. -/
theorem snapshot_fidelity (freeValue : Bool) (cmpFxn : α → α → Int) (capacity : Int)
    (loadFactor : ℚ) (hashFxn : α → Int → Int) (sd0 sd : SData α)
    (calls : List (Call α)) (rets : List (Option Int))
    (h0 : HashSet freeValue cmpFxn capacity loadFactor hashFxn true true true = some sd0)
    (hadds : onlyAdds calls = true) (hrun : execAll sd0 calls = some (sd, rets)) :
    ((inserted calls rets).length = 0 → ∀ alloc, s_toArray sd alloc = some none) ∧
      (0 < (inserted calls rets).length →
        ∃ l : List α, l.Perm (inserted calls rets) ∧
          (l.map some).length = (inserted calls rets).length ∧
          s_toArray sd true =
            some (some (l.map some, ((inserted calls rets).length : Int)))) := by
  obtain ⟨hs0, hp0, hnil, hsize⟩ := hashSet_some h0
  obtain ⟨_, hs, _, _⟩ := execAll_wellFormed hs0 hp0 hrun
  have hc := execAll_counted hs0 hp0 (by rw [hsize, hnil]; rfl) hrun
  have hperm := onlyAdds_entries calls sd0 sd rets hadds hs0 hp0 hrun
  rw [hnil, List.append_nil] at hperm
  obtain ⟨hempty, hfull⟩ := s_toArray_eq hs hc
  constructor
  · intro hN alloc
    apply hempty
    apply List.eq_nil_of_length_eq_zero
    rw [hperm.length_eq]
    exact hN
  · intro hN
    have hne : entries sd ≠ [] := by
      intro h
      rw [h] at hperm
      rw [← hperm.length_eq] at hN
      simp at hN
    refine ⟨entries sd, hperm, ?_, ?_⟩
    · rw [List.length_map, hperm.length_eq]
    · rw [hfull hne, hperm.length_eq]

/-- Witness of C6: three successful `add` calls on the two-bucket example set. -/
theorem snapshot_fidelity_witness :
    ∃ l : List Int, l.Perm [1, 3, 2] ∧ (l.map some).length = 3 ∧
      s_toArray demoThree true = some (some (l.map some, 3)) :=
  (snapshot_fidelity false numCmp 2 (1 / 2) modHash demoFresh demoThree
    [Call.add 1 true true, Call.add 3 true true, Call.add 2 true true]
    [some 1, some 1, some 1] demoFresh_constructed rfl rfl).2 (by decide)

/-! ## Agreement with a mathematical set -/

theorem specMember_iff {cmp : α → α → Int} {S : List α} {e : α} :
    specMember cmp S e = true ↔ ∃ v ∈ S, cmp v e = 0 := by
  simp [specMember, List.any_eq_true]

theorem specMember_perm {cmp : α → α → Int} {S T : List α} (e : α) (h : S.Perm T) :
    specMember cmp S e = specMember cmp T e := by
  have hiff : specMember cmp S e = true ↔ specMember cmp T e = true := by
    rw [specMember_iff, specMember_iff]
    constructor
    · rintro ⟨v, hv, hve⟩
      exact ⟨v, h.mem_iff.mp hv, hve⟩
    · rintro ⟨v, hv, hve⟩
      exact ⟨v, h.mem_iff.mpr hv, hve⟩
  cases h1 : specMember cmp S e <;> cases h2 : specMember cmp T e <;> simp_all

theorem specMember_false {cmp : α → α → Int} {S : List α} {e : α}
    (h : ∀ v ∈ S, cmp v e ≠ 0) : specMember cmp S e = false := by
  cases hm : specMember cmp S e with
  | false => rfl
  | true =>
    obtain ⟨v, hv, hve⟩ := specMember_iff.mp hm
    exact absurd hve (h v hv)

theorem exec_refines {sd sd1 : SData α} {S : List α} {c : Call α} {r : Option Int}
    (hs : Slots sd) (hp : Placed sd) (hc : sd.size = ((entries sd).length : Int))
    (hu : Unique sd) (hS : (entries sd).Perm S) (hh : HashInRange sd.hash)
    (hequiv : CmpEquivalence sd.cmp) (hcons : HashConsistent sd.hash sd.cmp)
    (halloc : ∀ m a1 a2, c = Call.add m a1 a2 → a2 = true)
    (h : exec sd c = some (sd1, r)) :
    r = (specExec sd.cmp S c).2 ∧ (entries sd1).Perm (specExec sd.cmp S c).1 := by
  cases c with
  | add member allocArray allocNode =>
    have ha : allocNode = true := halloc _ _ _ rfl
    simp only [exec] at h
    split at h
    · cases h
    · rename_i sd2 r2 hadd
      cases h
      obtain ⟨_, _, _, _, _, hcase⟩ := s_add_some hs hp hadd
      rcases hcase with ⟨hr, _, hperm, _, hnew⟩ | ⟨hr, hperm, _, hfound⟩
      · have hm : specMember sd.cmp S member = false :=
          specMember_false fun v hv hve =>
            hnew v (hS.mem_iff.mpr hv) (hcons v member _ hve) hve
        have hspec : specExec sd.cmp S (Call.add member allocArray allocNode) =
            (member :: S, some 1) := by
          simp [specExec, hm]
        rw [hspec, hr]
        exact ⟨rfl, hperm.trans (List.Perm.cons _ hS)⟩
      · have hm : specMember sd.cmp S member = true := by
          rcases hfound with hf | ⟨v, hv, _, hve⟩
          · rw [ha] at hf
            cases hf
          · exact specMember_iff.mpr ⟨v, hS.mem_iff.mp hv, hve⟩
        have hspec : specExec sd.cmp S (Call.add member allocArray allocNode) =
            (S, some 0) := by
          simp [specExec, hm]
        rw [hspec, hr]
        exact ⟨rfl, hperm.trans hS⟩
  | remove member =>
    simp only [exec] at h
    split at h
    · cases h
    · rename_i sd2 r2 hrem
      cases h
      obtain ⟨_, _, _, _, hcase⟩ := s_remove_some hs hp hrem
      rcases hcase with ⟨hr, hsame, hnone⟩ | ⟨hr, v, hv, hve, _, hperm, _⟩
      · have hm : specMember sd.cmp S member = false :=
          specMember_false fun v hv hve =>
            hnone v (hS.mem_iff.mpr hv) (hcons v member _ hve) hve
        have hspec : specExec sd.cmp S (Call.remove member) = (S, some 0) := by
          simp [specExec, hm]
        rw [hspec, hr, hsame]
        exact ⟨rfl, hS⟩
      · have hm : specMember sd.cmp S member = true :=
          specMember_iff.mpr ⟨v, hS.mem_iff.mp hv, hve⟩
        have hspec : specExec sd.cmp S (Call.remove member) =
            (S.filter (fun w => sd.cmp w member != 0), some 1) := by
          simp [specExec, hm]
        rw [hspec, hr]
        refine ⟨rfl, ?_⟩
        have hsym : ∀ {x y : α}, sd.cmp x y ≠ 0 → sd.cmp y x ≠ 0 :=
          fun hxy hyx => hxy (hequiv.2.1 _ _ hyx)
        have hpw := List.pairwise_cons.mp (List.Pairwise.perm hu hperm hsym)
        have hfilter : (v :: entries sd1).filter (fun w => sd.cmp w member != 0) =
            entries sd1 := by
          rw [List.filter_cons_of_neg (by simp [hve])]
          apply List.filter_eq_self.mpr
          intro w hw
          have hvw := hpw.1 w hw
          simp only [bne_iff_ne, ne_eq]
          intro hwe
          exact hvw (hequiv.2.2 _ _ _ hve (hequiv.2.1 _ _ hwe))
        have hfp := (hperm.symm.trans hS).filter (fun w => sd.cmp w member != 0)
        rw [hfilter] at hfp
        exact hfp
  | clear =>
    simp only [exec] at h
    split at h
    · cases h
    · rename_i sd2 hclr
      cases h
      obtain ⟨_, _, _, _, hnil, _⟩ := s_clear_some hs hclr
      have hspec : specExec sd.cmp S Call.clear = ([], none) := rfl
      rw [hspec, hnil]
      exact ⟨rfl, List.Perm.refl _⟩
  | contains member =>
    simp only [exec] at h
    split at h
    · cases h
    · rename_i r2 hcon
      simp only [Option.some.injEq, Prod.mk.injEq] at h
      rw [← h.1, ← h.2]
      rcases s_contains_consistent member hs hp hh hcons with ⟨h1, v, hv, hve⟩ | ⟨h0, hall⟩
      · have hm : specMember sd.cmp S member = true :=
          specMember_iff.mpr ⟨v, hS.mem_iff.mp hv, hve⟩
        have hspec : specExec sd.cmp S (Call.contains member) = (S, some 1) := by
          simp [specExec, hm]
        rw [h1] at hcon
        cases hcon
        rw [hspec]
        exact ⟨rfl, hS⟩
      · have hm : specMember sd.cmp S member = false :=
          specMember_false fun v hv => hall v (hS.mem_iff.mpr hv)
        have hspec : specExec sd.cmp S (Call.contains member) = (S, some 0) := by
          simp [specExec, hm]
        rw [h0] at hcon
        cases hcon
        rw [hspec]
        exact ⟨rfl, hS⟩
  | isEmpty =>
    simp only [exec, Option.some.injEq, Prod.mk.injEq] at h
    rw [← h.1, ← h.2]
    refine ⟨?_, hS⟩
    simp only [specExec, s_isEmpty]
    rw [hc, hS.length_eq]
    by_cases h0 : S.length = 0 <;> simp [h0]
  | size =>
    simp only [exec, Option.some.injEq, Prod.mk.injEq] at h
    rw [← h.1, ← h.2]
    refine ⟨?_, hS⟩
    simp only [specExec, s_size]
    rw [hc, hS.length_eq]

theorem execAll_refines :
    ∀ (calls : List (Call α)) (sd : SData α) (S : List α),
      Slots sd → Placed sd → sd.size = ((entries sd).length : Int) → Unique sd →
      (entries sd).Perm S → HashInRange sd.hash → CmpEquivalence sd.cmp →
      HashConsistent sd.hash sd.cmp → nodesAllocated calls = true →
      ∃ sd2 rets, execAll sd calls = some (sd2, rets) ∧
        rets = (specExecAll sd.cmp S calls).2
  | [], sd, S, _, _, _, _, _, _, _, _, _ => ⟨sd, [], rfl, rfl⟩
  | c :: cs, sd, S, hs, hp, hc, hu, hS, hh, hequiv, hcons, ha => by
    obtain ⟨sd1, r, hex⟩ := exec_total c hs hh
    obtain ⟨hcb, hs1, hp1, _⟩ := exec_some hs hp hex
    have hc1 := exec_counted hs hp hc hex
    have hu1 := exec_unique hs hp hequiv.2.1 hcons hu hex
    have hall : (∀ m a1 a2, c = Call.add m a1 a2 → a2 = true) ∧ nodesAllocated cs = true := by
      cases c <;> simp_all [nodesAllocated]
    obtain ⟨hr, hS1⟩ := exec_refines hs hp hc hu hS hh hequiv hcons hall.1 hex
    obtain ⟨sd2, rets, hrun, hrets⟩ := execAll_refines cs sd1 (specExec sd.cmp S c).1
      hs1 hp1 hc1 hu1 hS1 (by rw [hcb.1]; exact hh) (by rw [hcb.2.1]; exact hequiv)
      (by rw [hcb.1, hcb.2.1]; exact hcons) hall.2
    refine ⟨sd2, r :: rets, by simp [execAll, hex, hrun], ?_⟩
    rw [hrets, hr, hcb.2.1]
    simp [specExecAll]

theorem specExecAll_append (cmp : α → α → Int) :
    ∀ (cs1 cs2 : List (Call α)) (S : List α),
      specExecAll cmp S (cs1 ++ cs2) =
        ((specExecAll cmp (specExecAll cmp S cs1).1 cs2).1,
          (specExecAll cmp S cs1).2 ++ (specExecAll cmp (specExecAll cmp S cs1).1 cs2).2)
  | [], cs2, S => by simp [specExecAll]
  | c :: cs1, cs2, S => by
    rw [List.cons_append]
    simp only [specExecAll]
    rw [specExecAll_append cmp cs1 cs2]
    rfl

theorem specExecAll_adds (cmp : α → α → Int) :
    ∀ (l : List α) (S : List α), (l.Pairwise fun a b => cmp a b ≠ 0) →
      (∀ e ∈ l, ∀ v ∈ S, cmp v e ≠ 0) →
      specExecAll cmp S (l.map fun e => Call.add e true true) =
        (l.reverse ++ S, List.replicate l.length (some 1))
  | [], S, _, _ => by simp [specExecAll]
  | e :: rest, S, hpw, hnew => by
    obtain ⟨he, hrest⟩ := List.pairwise_cons.mp hpw
    have hm : specMember cmp S e = false :=
      specMember_false fun v hv => hnew e (List.mem_cons_self _ _) v hv
    have ih := specExecAll_adds cmp rest (e :: S) hrest (by
      intro x hx v hv
      rcases List.mem_cons.mp hv with rfl | hv
      · exact he x hx
      · exact hnew x (List.mem_cons_of_mem _ hx) v hv)
    simp only [List.map_cons, specExecAll, specExec, hm, Bool.false_eq_true, if_false, ih]
    simp [List.replicate_succ]

theorem specMember_numCmp {T : List Int} {x : Int} :
    specMember numCmp T x = true ↔ x ∈ T := by
  rw [specMember_iff]
  constructor
  · rintro ⟨v, hv, hvx⟩
    rw [← numCmp_eq_zero.mp hvx]
    exact hv
  · intro hx
    exact ⟨x, hx, numCmp_eq_zero.mpr rfl⟩

theorem length_filter_numCmp (a : Int) :
    ∀ (T : List Int), T.Nodup → a ∈ T →
      ((T.filter fun v => numCmp v a != 0).length : Int) = (T.length : Int) - 1
  | [], _, ha => by cases ha
  | x :: rest, hnd, ha => by
    obtain ⟨hx, hrest⟩ := List.nodup_cons.mp hnd
    by_cases hxa : x = a
    · subst hxa
      have hp : (numCmp x x != 0) = false := by simp [numCmp_eq_zero.mpr rfl]
      rw [List.filter_cons, hp]
      simp only [Bool.false_eq_true, if_false]
      have hall : rest.filter (fun v => numCmp v x != 0) = rest := by
        apply List.filter_eq_self.mpr
        intro w hw
        simp only [bne_iff_ne, ne_eq]
        intro hwx
        exact hx (by rw [← numCmp_eq_zero.mp hwx]; exact hw)
      rw [hall]
      simp
    · have hp : (numCmp x a != 0) = true := by
        simp only [bne_iff_ne, ne_eq]
        exact fun h => hxa (numCmp_eq_zero.mp h)
      have ha1 : a ∈ rest := by
        rcases List.mem_cons.mp ha with h | h
        · exact absurd h.symm hxa
        · exact h
      rw [List.filter_cons, hp]
      simp only [if_true]
      rw [List.length_cons, List.length_cons, Nat.cast_succ,
        length_filter_numCmp a rest hrest ha1]
      omega

theorem scenario_spec :
    (specExecAll numCmp [] scenarioCalls).2 =
      List.replicate 1000 (some 1) ++
        [some 1000, some 1, some 0, some 1, some 999, some 0] := by
  have hl : (List.range' 1 1000).map (fun i : Nat => Call.add (i : Int) true true) =
      ((List.range' 1 1000).map fun i : Nat => (i : Int)).map
        fun e => Call.add e true true := by
    rw [List.map_map]
    rfl
  have hnd : ((List.range' 1 1000).map fun i : Nat => (i : Int)).Nodup :=
    (List.nodup_range' 1 1000).map Nat.cast_injective
  have hpw : ((List.range' 1 1000).map fun i : Nat => (i : Int)).Pairwise
      fun a b => numCmp a b ≠ 0 :=
    hnd.imp fun hab h => hab (numCmp_eq_zero.mp h)
  have hadds := specExecAll_adds numCmp _ [] hpw (by intro e _ v hv; cases hv)
  generalize hT : ((List.range' 1 1000).map fun i : Nat => (i : Int)).reverse = T at hadds
  have hmem : ∀ x : Int, x ∈ T ↔ 1 ≤ x ∧ x < 1001 := by
    intro x
    rw [← hT]
    simp only [List.mem_reverse, List.mem_map, List.mem_range']
    constructor
    · rintro ⟨i, ⟨j, hj, rfl⟩, rfl⟩
      omega
    · rintro ⟨h1, h2⟩
      exact ⟨x.toNat, ⟨x.toNat - 1, by omega, by omega⟩, by omega⟩
  have hlen : T.length = 1000 := by
    rw [← hT]
    simp
  have hTnd : T.Nodup := by
    rw [← hT]
    exact List.nodup_reverse.mpr hnd
  have h500 : specMember numCmp T 500 = true := specMember_numCmp.mpr ((hmem 500).mpr (by omega))
  have h1500 : specMember numCmp T 1500 = false :=
    specMember_false fun v hv hve => by
      have := (hmem 1500).mp (by rw [← numCmp_eq_zero.mp hve]; exact hv)
      omega
  have hgone : specMember numCmp (T.filter fun v => numCmp v 500 != 0) 500 = false :=
    specMember_false fun v hv hve => by
      have := (List.mem_filter.mp hv).2
      simp [hve] at this
  have hlen1 := length_filter_numCmp 500 T hTnd ((hmem 500).mpr (by omega))
  unfold scenarioCalls
  rw [hl, specExecAll_append, hadds]
  simp only [List.append_nil, List.length_map, List.length_range', specExecAll, specExec,
    h500, h1500, hgone, if_true, Bool.false_eq_true, if_false, hlen1, hlen]
  rfl

theorem hashSet_callbacks {freeValue : Bool} {cmpFxn : α → α → Int} {capacity : Int}
    {loadFactor : ℚ} {hashFxn : α → Int → Int} {sd0 : SData α}
    (h : HashSet freeValue cmpFxn capacity loadFactor hashFxn true true true = some sd0) :
    sd0.hash = hashFxn ∧ sd0.cmp = cmpFxn ∧ sd0.freeV = freeValue := by
  unfold HashSet at h
  rw [newSet_eq] at h
  cases h
  exact ⟨rfl, rfl, rfl⟩

theorem hashSet_refines {freeValue : Bool} {cmpFxn : α → α → Int} {capacity : Int}
    {loadFactor : ℚ} {hashFxn : α → Int → Int} {sd0 : SData α}
    (h0 : HashSet freeValue cmpFxn capacity loadFactor hashFxn true true true = some sd0)
    (hh : HashInRange hashFxn) (hequiv : CmpEquivalence cmpFxn)
    (hcons : HashConsistent hashFxn cmpFxn) (calls : List (Call α))
    (halloc : nodesAllocated calls = true) :
    ∃ sd rets, execAll sd0 calls = some (sd, rets) ∧
      rets = (specExecAll cmpFxn [] calls).2 := by
  obtain ⟨hs0, hp0, hnil, hsize⟩ := hashSet_some h0
  obtain ⟨hhash, hcmp, _⟩ := hashSet_callbacks h0
  have hu : Unique sd0 := by
    unfold Unique
    rw [hnil]
    exact List.Pairwise.nil
  have := execAll_refines calls sd0 [] hs0 hp0 (by rw [hsize, hnil]; rfl) hu
    (by rw [hnil]) (by rw [hhash]; exact hh) (by rw [hcmp]; exact hequiv)
    (by rw [hhash, hcmp]; exact hcons) halloc
  rw [hcmp] at this
  exact this

/-- C7 (set-model agreement): for a freshly constructed set, with a hash that stays in
`[0, n)`, a comparator that is an equivalence relation consistent with the hash, and
every node allocation succeeding, every sequence of `add`, `remove`, `clear`, `contains`,
`isEmpty` and `size` calls returns, and returns the values that the same operations
return on a mathematical set taken modulo the comparator.  In particular, on a set with
default parameters, a modulo hash and numeric equality, the thousand calls `add(1)` to
`add(1000)` return 1, after which `size()` is 1000, `contains(500)` is 1,
`contains(1500)` is 0, `remove(500)` returns 1, `size()` is 999 and `contains(500)` is 0. -/
theorem set_model_agreement (freeValue : Bool) (cmpFxn : α → α → Int) (capacity : Int)
    (loadFactor : ℚ) (hashFxn : α → Int → Int) (sd0 : SData α) (calls : List (Call α))
    (h0 : HashSet freeValue cmpFxn capacity loadFactor hashFxn true true true = some sd0)
    (hh : HashInRange hashFxn) (hequiv : CmpEquivalence cmpFxn)
    (hcons : HashConsistent hashFxn cmpFxn) (halloc : nodesAllocated calls = true) :
    (∃ sd rets, execAll sd0 calls = some (sd, rets) ∧
        rets = (specExecAll cmpFxn [] calls).2) ∧
      ∃ (start final : SData Int) (rets : List (Option Int)),
        HashSet false numCmp 0 0 modHash true true true = some start ∧
        execAll start scenarioCalls = some (final, rets) ∧
        rets = List.replicate 1000 (some 1) ++
          [some 1000, some 1, some 0, some 1, some 999, some 0] := by
  refine ⟨hashSet_refines h0 hh hequiv hcons calls halloc, ?_⟩
  have hnew := newSet_eq 0 0 modHash numCmp false
  obtain ⟨final, rets, hrun, hrets⟩ := hashSet_refines (by unfold HashSet; exact hnew)
    modHash_inRange numCmp_equivalence modHash_consistent scenarioCalls (by
      unfold scenarioCalls
      have hgen : ∀ (l : List Nat) (rest : List (Call Int)), nodesAllocated rest = true →
          nodesAllocated (l.map (fun i : Nat => Call.add (i : Int) true true) ++ rest) =
            true := by
        intro l rest hrest
        induction l with
        | nil => simpa using hrest
        | cons i l ih => simpa [nodesAllocated] using ih
      exact hgen _ _ rfl)
  exact ⟨_, final, rets, hnew, hrun, hrets.trans scenario_spec⟩

/-- Witness of C7: five calls on the two-bucket example set. -/
theorem set_model_agreement_witness :
    ∃ sd rets,
      execAll demoFresh [Call.add 1 true true, Call.add 1 false true, Call.size,
        Call.remove 1, Call.isEmpty] = some (sd, rets) ∧
      rets = [some 1, some 0, some 1, some 1, some 1] :=
  (set_model_agreement false numCmp 2 (1 / 2) modHash demoFresh
    [Call.add 1 true true, Call.add 1 false true, Call.size, Call.remove 1, Call.isEmpty]
    demoFresh_constructed modHash_inRange numCmp_equivalence modHash_consistent rfl).1

/-! ## Capacity ceiling -/

theorem loadCheck_at_max {sd : SData α} (alloc : Bool) (hs : Slots sd)
    (hmax : sd.capacity = MAX_CAPACITY) :
    ∃ sd1, loadCheck sd alloc = some sd1 ∧ sd1.buckets = sd.buckets ∧
      sd1.hash = sd.hash ∧ sd1.cmp = sd.cmp ∧ sd1.capacity = sd.capacity := by
  have hres : resize { sd with changes := 0 } alloc = some { sd with changes := 0 } := by
    rw [@resize_eq α { sd with changes := 0 } hs alloc]
    have hg : grownCapacity sd.capacity = sd.capacity :=
      (grownCapacity_bounds hs.1 hs.2.1).2.2.mpr hmax
    simp only [hg, if_true]
  unfold loadCheck
  split
  · split
    · exact ⟨_, hres, rfl, rfl, rfl, rfl⟩
    · exact ⟨_, rfl, rfl, rfl, rfl, rfl⟩
  · exact ⟨_, rfl, rfl, rfl, rfl, rfl⟩

theorem s_contains_zero {sd : SData α} {e : α} (h : s_contains sd e = some 0) :
    ∃ chain, readAt sd.buckets (sd.hash e sd.capacity) = some chain ∧
      findNode sd.cmp e chain = none := by
  unfold s_contains findMember at h
  cases hr : readAt sd.buckets (sd.hash e sd.capacity) with
  | none => simp [hr] at h
  | some chain =>
    refine ⟨chain, rfl, ?_⟩
    cases hf : findNode sd.cmp e chain with
    | none => rfl
    | some k => simp [hr, hf] at h

/-- C8 (capacity ceiling): for a state reached from `HashSet(capacity, ...)`, the
initial capacity is 16 when `capacity <= 0`, 134217728 when `capacity > 134217728` and
`capacity` otherwise; the current capacity is at least the initial one and at most
134217728; no call decreases it; and at capacity 134217728 an `add` of an element that
`contains` does not find returns 1 when its node can be allocated. -/
theorem capacity_ceiling (freeValue : Bool) (cmpFxn : α → α → Int) (capacity : Int)
    (loadFactor : ℚ) (hashFxn : α → Int → Int) (sd0 sd : SData α)
    (calls : List (Call α)) (rets : List (Option Int))
    (h0 : HashSet freeValue cmpFxn capacity loadFactor hashFxn true true true = some sd0)
    (hrun : execAll sd0 calls = some (sd, rets)) :
    sd0.capacity =
        (if capacity ≤ 0 then 16 else if capacity > 134217728 then 134217728 else capacity) ∧
      sd0.capacity ≤ sd.capacity ∧ sd.capacity ≤ 134217728 ∧
      (∀ c sd1 r, exec sd c = some (sd1, r) → sd.capacity ≤ sd1.capacity) ∧
      (sd.capacity = 134217728 → ∀ e allocArray, s_contains sd e = some 0 →
        ∃ sd1, s_add sd e allocArray true = some (sd1, 1)) := by
  obtain ⟨hs0, hp0, _, _⟩ := hashSet_some h0
  obtain ⟨_, hs, hp, hle⟩ := execAll_wellFormed hs0 hp0 hrun
  refine ⟨?_, hle, hs.2.1, fun c sd1 r hex => (exec_some hs hp hex).2.2.2, ?_⟩
  · unfold HashSet at h0
    rw [newSet_eq] at h0
    cases h0
    simp only [DEFAULT_CAPACITY, MAX_CAPACITY]
    split <;> split <;> split <;> omega
  · intro hmax e allocArray hcon
    obtain ⟨sd1, hl, hb, hh1, hc1, hcap1⟩ := loadCheck_at_max allocArray hs hmax
    obtain ⟨chain, hr, hf⟩ := s_contains_zero hcon
    unfold s_add findMember insertNode
    simp only [hl, hb, hh1, hc1, hcap1, hr, hf, Bool.true_eq_false, if_false]
    exact ⟨_, rfl⟩

/-- Witness of C8: the example set holding 2, 3 and 1, reached from
`HashSet(NULL, numCmp, 2, 0.5, modHash)`. -/
theorem capacity_ceiling_witness :
    demoFresh.capacity = 2 ∧ demoFresh.capacity ≤ demoThree.capacity ∧
      demoThree.capacity ≤ 134217728 ∧
      (∀ c sd1 r, exec demoThree c = some (sd1, r) → demoThree.capacity ≤ sd1.capacity) ∧
      (demoThree.capacity = 134217728 → ∀ e allocArray, s_contains demoThree e = some 0 →
        ∃ sd1, s_add demoThree e allocArray true = some (sd1, 1)) :=
  capacity_ceiling false numCmp 2 (1 / 2) modHash demoFresh demoThree
    [Call.add 1 true true, Call.add 3 true true, Call.add 2 true true]
    [some 1, some 1, some 1] demoFresh_constructed rfl

/-! ## `remove` of an absent element -/

/-- C9 (remove of an absent element): in a reachable state, with a hash that stays in
`[0, n)`, when no value stored in the bucket of `e` compares equal to `e`, `remove(e)`
returns 0 and the state after the call is the state before it, field for field. -/
theorem remove_absent (sd : SData α) (e : α) (hreach : Reachable sd)
    (hh : HashInRange sd.hash)
    (habs : ∀ chain, readAt sd.buckets (sd.hash e sd.capacity) = some chain →
      ∀ v ∈ chain, sd.cmp v e ≠ 0) :
    s_remove sd e = some (sd, 0) := by
  obtain ⟨hs, _⟩ := reachable_wellFormed hreach
  obtain ⟨chain, hr⟩ := bucket_total e hs hh
  have hf : findNode sd.cmp e chain = none := findNode_none_iff.mpr (habs chain hr)
  unfold s_remove findMember
  simp only [hr, hf]

/-- Witness of C9: `remove(5)` on the example set holding 2, 3 and 1. -/
theorem remove_absent_witness : s_remove demoThree 5 = some (demoThree, 0) :=
  remove_absent demoThree 5 demoThree_reachable modHash_inRange (by
    intro chain hchain v hv
    have hc : chain = [3, 1] := by
      have h : readAt demoThree.buckets (demoThree.hash 5 demoThree.capacity) =
          some [3, 1] := by decide
      rw [h] at hchain
      exact (Option.some.inj hchain).symm
    subst hc
    simp only [List.mem_cons, List.mem_singleton, List.not_mem_nil, or_false] at hv
    rcases hv with rfl | rfl <;> decide)

/-! ## Construction -/

/-- C10 (construction defaults): when its three allocations succeed, `HashSet` returns a
set whose capacity is 16 for a request `c <= 0`, 134217728 for `c > 134217728` and `c`
otherwise; whose load factor is 0.75 for a request `f <= 0.000001` and `f` otherwise;
whose size, load and change counter are 0; whose increment is `1 / capacity`; whose
buckets are `capacity` empty chains; for which `isEmpty` returns 1 and, the hash staying
in `[0, n)`, `contains(x)` returns 0 for every `x`. -/
theorem construction_defaults (freeValue : Bool) (cmpFxn : α → α → Int) (c : Int)
    (f : ℚ) (hashFxn : α → Int → Int) :
    ∃ sd, HashSet freeValue cmpFxn c f hashFxn true true true = some sd ∧
      sd.capacity = (if c ≤ 0 then 16 else if c > 134217728 then 134217728 else c) ∧
      sd.loadFactor = (if f ≤ 1 / 1000000 then 3 / 4 else f) ∧
      sd.size = 0 ∧ sd.load = 0 ∧ sd.changes = 0 ∧
      sd.increment = 1 / (sd.capacity : ℚ) ∧
      sd.buckets = List.replicate sd.capacity.toNat [] ∧
      sd.hash = hashFxn ∧ sd.cmp = cmpFxn ∧ sd.freeV = freeValue ∧
      s_isEmpty sd = 1 ∧
      (HashInRange hashFxn → ∀ x, s_contains sd x = some 0) := by
  refine ⟨_, by unfold HashSet; exact newSet_eq c f hashFxn cmpFxn freeValue, ?_, ?_,
    rfl, rfl, rfl, rfl, rfl, rfl, rfl, rfl, ?_, ?_⟩
  · simp only [DEFAULT_CAPACITY, MAX_CAPACITY]
    split <;> split <;> split <;> omega
  · simp only [DEFAULT_LOAD_FACTOR]
    by_cases hf : f ≤ 1 / 1000000
    · rw [if_pos hf, if_neg (not_lt.mpr hf)]
    · rw [if_neg hf, if_pos (not_le.mp hf)]
  · rfl
  · intro hh x
    obtain ⟨h1, h2⟩ := initial_capacity_bounds c
    obtain ⟨h3, h4⟩ := hh x _ (lt_of_lt_of_le (by decide) h1)
    unfold s_contains findMember readAt
    simp only [if_pos h3]
    rw [List.getElem?_replicate, if_pos (by omega)]
    rfl

/-- Witness of C10: `contains(7)` on a set constructed with default parameters. -/
theorem construction_defaults_witness :
    ∃ sd : SData Int, HashSet false numCmp 0 0 modHash true true true = some sd ∧
      sd.capacity = 16 ∧ sd.loadFactor = 3 / 4 ∧ s_contains sd 7 = some 0 := by
  obtain ⟨sd, h0, hcap, hlf, _, _, _, _, _, _, _, _, _, hcon⟩ :=
    construction_defaults false numCmp 0 0 modHash
  refine ⟨sd, h0, ?_, ?_, hcon modHash_inRange 7⟩
  · rw [hcap]
    rfl
  · rw [hlf]
    norm_num

/-! ## `clear` -/

/-- C11 (clear): in a reachable state `clear` returns; afterwards every bucket chain is
empty, the bucket array has as many slots as before, size, load and change counter are
0, capacity, load factor and increment are unchanged, `contains(x)` returns 0 for every
`x` (the hash staying in `[0, n)`), and the destructor, when there is one, has been
invoked on exactly the entries that were stored, once per entry; without a destructor
nothing is invoked. -/
theorem clear_resets (sd : SData α) (hreach : Reachable sd) :
    ∃ sd1, s_clear sd = some sd1 ∧
      (∀ chain ∈ sd1.buckets, chain = []) ∧ sd1.buckets.length = sd.buckets.length ∧
      sd1.size = 0 ∧ sd1.load = 0 ∧ sd1.changes = 0 ∧
      sd1.capacity = sd.capacity ∧ sd1.loadFactor = sd.loadFactor ∧
      sd1.increment = sd.increment ∧
      (HashInRange sd.hash → ∀ x, s_contains sd1 x = some 0) ∧
      sd1.freed = (if sd.freeV then sd.freed ++ entries sd else sd.freed) := by
  obtain ⟨hs, _⟩ := reachable_wellFormed hreach
  refine ⟨_, s_clear_eq hs, ?_, ?_, rfl, rfl, rfl, rfl, rfl, rfl, ?_, rfl⟩
  · intro chain hchain
    exact List.eq_of_mem_replicate hchain
  · simp only [List.length_replicate]
    exact hs.2.2.symm
  · intro hh x
    obtain ⟨h0, h1⟩ := hh x sd.capacity (lt_of_lt_of_le (by decide) hs.1)
    unfold s_contains findMember readAt
    simp only [if_pos h0]
    rw [List.getElem?_replicate, if_pos (by omega)]
    rfl

/-- Witness of C11: `clear` on the example set holding 2, 3 and 1. -/
theorem clear_resets_witness :
    ∃ sd1, s_clear demoThree = some sd1 ∧
      (∀ chain ∈ sd1.buckets, chain = []) ∧ sd1.buckets.length = demoThree.buckets.length ∧
      sd1.size = 0 ∧ sd1.load = 0 ∧ sd1.changes = 0 ∧
      sd1.capacity = demoThree.capacity ∧ sd1.loadFactor = demoThree.loadFactor ∧
      sd1.increment = demoThree.increment ∧
      (HashInRange demoThree.hash → ∀ x, s_contains sd1 x = some 0) ∧
      sd1.freed =
        (if demoThree.freeV then demoThree.freed ++ entries demoThree else demoThree.freed) :=
  clear_resets demoThree demoThree_reachable

/-! ## Bucket placement -/

/-- C15 (bucket-placement invariant): in every reachable state the bucket array has
exactly `capacity` slots, and every value stored in the chain of bucket `i` hashes to `i`
for the current capacity. -/
theorem bucket_placement_invariant (sd : SData α) (hreach : Reachable sd) :
    (sd.buckets.length : Int) = sd.capacity ∧
      ∀ (i : Nat) (chain : List α), sd.buckets[i]? = some chain →
        ∀ v ∈ chain, sd.hash v sd.capacity = (i : Int) := by
  obtain ⟨hs, hp⟩ := reachable_wellFormed hreach
  refine ⟨?_, hp⟩
  rw [hs.2.2]
  exact Int.toNat_of_nonneg (le_trans (by decide) hs.1)

/-- Witness of C15: the example set holding 2, 3 and 1 in two buckets. -/
theorem bucket_placement_invariant_witness :
    (demoThree.buckets.length : Int) = demoThree.capacity ∧
      ∀ (i : Nat) (chain : List Int), demoThree.buckets[i]? = some chain →
        ∀ v ∈ chain, demoThree.hash v demoThree.capacity = (i : Int) :=
  bucket_placement_invariant demoThree demoThree_reachable

/-! ## Single steps of `add`, `remove` and `resize` -/

theorem readAt_writeAt_same {b : List (List α)} {i : Int} {chain : List α}
    (h : readAt b i = some chain) (chain1 : List α) :
    readAt (writeAt b i chain1) i = some chain1 := by
  obtain ⟨h0, hlt, _⟩ := readAt_some h
  unfold readAt writeAt
  rw [if_pos h0, List.getElem?_set, if_pos rfl, if_pos hlt]

theorem getElem?_writeAt_ne (b : List (List α)) (i : Int) (chain1 : List α) {j : Nat}
    (h : j ≠ i.toNat) : (writeAt b i chain1)[j]? = b[j]? := by
  unfold writeAt
  rw [List.getElem?_set, if_neg (Ne.symm h)]

theorem s_add_eq (sd : SData α) (member : α) (allocArray allocNode : Bool) :
    s_add sd member allocArray allocNode =
      match loadCheck sd allocArray with
      | none => none
      | some sd1 => locateInsert sd1 member allocNode := rfl

theorem locateInsert_fresh {sd : SData α} {e : α} {chain : List α}
    (hb : readAt sd.buckets (sd.hash e sd.capacity) = some chain)
    (hnew : ∀ v ∈ chain, sd.cmp v e ≠ 0) :
    locateInsert sd e true =
      some ({ sd with
        buckets := writeAt sd.buckets (sd.hash e sd.capacity) (e :: chain)
        size := sd.size + 1
        load := sd.load + sd.increment
        changes := sd.changes + 1 }, 1) := by
  have hf : findNode sd.cmp e chain = none := findNode_none_iff.mpr hnew
  unfold locateInsert findMember insertNode
  simp only [hb, hf, Bool.true_eq_false, if_false]

theorem resize_fields {sd sd1 : SData α} {alloc : Bool} (h1 : 1 ≤ sd.capacity)
    (h2 : sd.capacity ≤ MAX_CAPACITY) (h : resize sd alloc = some sd1) :
    (sd1 = sd ∧ (grownCapacity sd.capacity = sd.capacity ∨ alloc = false)) ∨
      (grownCapacity sd.capacity ≠ sd.capacity ∧ alloc = true ∧
        sd1.capacity = grownCapacity sd.capacity ∧ sd1.load = sd.load / 2 ∧
        sd1.changes = 0 ∧ sd1.increment = 1 / (grownCapacity sd.capacity : ℚ) ∧
        sd1.size = sd.size ∧ sd1.loadFactor = sd.loadFactor ∧ sd1.freed = sd.freed ∧
        sd1.hash = sd.hash ∧ sd1.cmp = sd.cmp ∧ sd1.freeV = sd.freeV) := by
  unfold resize at h
  simp only [double_capacity h1 h2, toInt32_max] at h
  have hg : (if 2 * sd.capacity > MAX_CAPACITY then MAX_CAPACITY else 2 * sd.capacity) =
      grownCapacity sd.capacity := rfl
  rw [hg] at h
  split at h
  · rename_i heq
    cases h
    exact Or.inl ⟨rfl, Or.inl heq⟩
  · rename_i hne
    split at h
    · rename_i hfalse
      cases h
      exact Or.inl ⟨rfl, Or.inr hfalse⟩
    · rename_i halloc
      split at h
      · cases h
      · split at h
        · cases h
        · cases h
          refine Or.inr ⟨hne, ?_, rfl, rfl, rfl, rfl, rfl, rfl, rfl, rfl, rfl, rfl⟩
          cases alloc with
          | false => exact absurd rfl halloc
          | true => rfl

theorem reachable_increment {sd : SData α} (hreach : Reachable sd) :
    sd.increment = 1 / (sd.capacity : ℚ) := by
  obtain ⟨fv, cmpFxn, capacity, lf, hashFxn, sd0, calls, rets, h0, hrun⟩ := hreach
  obtain ⟨hs0, hp0, _, _⟩ := hashSet_some h0
  have hinc0 : sd0.increment = 1 / (sd0.capacity : ℚ) := by
    unfold HashSet at h0
    rw [newSet_eq] at h0
    cases h0
    rfl
  refine (execAll_invariant
    (fun s => Slots s ∧ Placed s ∧ s.increment = 1 / (s.capacity : ℚ)) ?_
    calls sd0 sd rets ⟨hs0, hp0, hinc0⟩ hrun).2.2
  intro s c s1 r hP hex
  obtain ⟨hs, hp, hinc⟩ := hP
  obtain ⟨_, hs1, hp1, _⟩ := exec_some hs hp hex
  refine ⟨hs1, hp1, ?_⟩
  have hcheck : ∀ (a : Bool) (t : SData α), loadCheck s a = some t →
      t.increment = 1 / (t.capacity : ℚ) := by
    intro a t hl
    unfold loadCheck at hl
    split at hl
    · split at hl
      · rcases @resize_fields α { s with changes := 0 } t a hs.1 hs.2.1 hl with
          ⟨rfl, _⟩ | ⟨_, _, hc, _, _, hi, _⟩
        · exact hinc
        · rw [hi, hc]
      · cases hl
        exact hinc
    · cases hl
      exact hinc
  cases c with
  | add member allocArray1 allocNode =>
    simp only [exec] at hex
    split at hex
    · cases hex
    · rename_i s2 r2 hadd
      cases hex
      obtain ⟨t, chain1, hl, _, hcase⟩ := s_add_cases hadd
      have ht := hcheck _ _ hl
      rcases hcase with ⟨_, rfl, _⟩ | ⟨_, _, rfl, _⟩ | ⟨_, _, _, rfl⟩
      · exact ht
      · exact ht
      · exact ht
  | remove member =>
    simp only [exec] at hex
    split at hex
    · cases hex
    · rename_i s2 r2 hrem
      cases hex
      obtain ⟨chain1, _, hcase⟩ := s_remove_cases hrem
      rcases hcase with ⟨_, rfl, _⟩ | ⟨_, _, _, _, _, _, _, _, rfl⟩
      · exact hinc
      · exact hinc
  | clear =>
    simp only [exec] at hex
    split at hex
    · cases hex
    · rename_i s2 hclr
      cases hex
      rw [s_clear_eq hs] at hclr
      cases hclr
      exact hinc
  | contains member =>
    simp only [exec] at hex
    split at hex
    · cases hex
    · cases hex
      exact hinc
  | isEmpty =>
    simp only [exec, Option.some.injEq, Prod.mk.injEq] at hex
    rw [← hex.1]
    exact hinc
  | size =>
    simp only [exec, Option.some.injEq, Prod.mk.injEq] at hex
    rw [← hex.1]
    exact hinc


/-- C16 (successful add step): for a state whose change counter is at most 100 and an
element `e` whose bucket holds no value equal to `e`, `add(e)` with its node allocated
returns 1 and yields the state in which only these fields differ: the bucket of `e` has
`e` in front of its former chain, size and change counter are one larger, and the load
is larger by the increment; every other bucket is as before; and in a reachable state
the increment is `1 / capacity`. -/
theorem successful_add_step (sd : SData α) (e : α) (allocArray : Bool) (chain : List α)
    (hch : sd.changes ≤ 100)
    (hb : readAt sd.buckets (sd.hash e sd.capacity) = some chain)
    (hnew : ∀ v ∈ chain, sd.cmp v e ≠ 0) :
    s_add sd e allocArray true =
        some ({ sd with
          buckets := writeAt sd.buckets (sd.hash e sd.capacity) (e :: chain)
          size := sd.size + 1
          load := sd.load + sd.increment
          changes := sd.changes + 1 }, 1) ∧
      readAt (writeAt sd.buckets (sd.hash e sd.capacity) (e :: chain))
        (sd.hash e sd.capacity) = some (e :: chain) ∧
      (∀ j : Nat, j ≠ (sd.hash e sd.capacity).toNat →
        (writeAt sd.buckets (sd.hash e sd.capacity) (e :: chain))[j]? = sd.buckets[j]?) ∧
      (Reachable sd → sd.increment = 1 / (sd.capacity : ℚ)) := by
  refine ⟨?_, readAt_writeAt_same hb _, fun j hj => getElem?_writeAt_ne _ _ _ hj, ?_⟩
  · have hl : loadCheck sd allocArray = some sd := by
      unfold loadCheck TRIGGER
      rw [if_neg (not_lt.mpr hch)]
    rw [s_add_eq, hl]
    exact locateInsert_fresh hb hnew
  · exact fun hreach => reachable_increment hreach

/-- Witness of C16: `add(5)` on the example set holding 2, 3 and 1. -/
theorem successful_add_step_witness :
    s_add demoThree 5 true true =
      some ({ demoThree with
        buckets := [[2], [5, 3, 1]]
        size := demoThree.size + 1
        load := demoThree.load + demoThree.increment
        changes := demoThree.changes + 1 }, 1) :=
  (successful_add_step demoThree 5 true [3, 1] (by decide) (by decide) (by
    intro v hv
    simp only [List.mem_cons, List.mem_singleton, List.not_mem_nil, or_false] at hv
    rcases hv with rfl | rfl <;> decide)).1

theorem grownCapacity_eq_min (c : Int) : grownCapacity c = min (2 * c) 134217728 := by
  unfold grownCapacity MAX_CAPACITY
  split <;> omega

/-- C18 (resize bookkeeping): for a state with `1 <= capacity <= 134217728` the doubling
held in the 32-bit `int` does not overflow, and the new capacity is
`min(2 * capacity, 134217728)`; if that equals the current capacity, or the new array
cannot be allocated, `resize` returns the state unchanged; otherwise a `resize` that
returns has set the capacity to the new capacity, halved the load, set the change
counter to 0, set the increment to `1 / new capacity` and kept size and load factor;
and it does return when the bucket array has `capacity` slots and the hash stays in
`[0, n)`. -/
theorem resize_bookkeeping (sd : SData α) (h1 : 1 ≤ sd.capacity)
    (h2 : sd.capacity ≤ 134217728) :
    toInt32 (toLong (2 * sd.capacity)) = 2 * sd.capacity ∧
      (min (2 * sd.capacity) 134217728 = sd.capacity → ∀ alloc, resize sd alloc = some sd) ∧
      resize sd false = some sd ∧
      (∀ sd1, min (2 * sd.capacity) 134217728 ≠ sd.capacity → resize sd true = some sd1 →
        sd1.capacity = min (2 * sd.capacity) 134217728 ∧ sd1.load = sd.load / 2 ∧
        sd1.changes = 0 ∧
        sd1.increment = 1 / ((min (2 * sd.capacity) 134217728 : Int) : ℚ) ∧
        sd1.size = sd.size ∧ sd1.loadFactor = sd.loadFactor) ∧
      (min (2 * sd.capacity) 134217728 ≠ sd.capacity →
        sd.buckets.length = sd.capacity.toNat → HashInRange sd.hash →
        ∃ sd1, resize sd true = some sd1) := by
  have hd := double_capacity h1 h2
  have hg : (if 2 * sd.capacity > MAX_CAPACITY then MAX_CAPACITY else 2 * sd.capacity) =
      grownCapacity sd.capacity := rfl
  refine ⟨hd, ?_, ?_, ?_, ?_⟩
  · intro hmin alloc
    unfold resize
    simp only [hd, toInt32_max]
    rw [hg, grownCapacity_eq_min, if_pos hmin]
  · unfold resize
    simp only [hd, toInt32_max, if_true]
    rw [hg]
    exact ite_self _
  · intro sd1 hne hres
    rw [← grownCapacity_eq_min] at hne ⊢
    rcases resize_fields h1 h2 hres with ⟨_, hcase⟩ | ⟨_, _, hc, hl, hch, hi, hsz, hlf, _⟩
    · rcases hcase with heq | hfalse
      · exact absurd heq hne
      · cases hfalse
    · exact ⟨hc, hl, hch, hi, hsz, hlf⟩
  · intro _ hlen hh
    exact resize_total true ⟨h1, h2, hlen⟩ hh

/-- Witness of C18: `resize` of the example set holding 2, 3 and 1 reaches capacity 4. -/
theorem resize_bookkeeping_witness :
    ∃ sd1, resize demoThree true = some sd1 ∧ sd1.capacity = 4 ∧
      sd1.load = demoThree.load / 2 ∧ sd1.changes = 0 := by
  obtain ⟨_, _, _, hfields, htotal⟩ :=
    resize_bookkeeping demoThree (by decide) (by decide)
  obtain ⟨sd1, hres⟩ := htotal (by decide) rfl modHash_inRange
  obtain ⟨hc, hl, hch, _⟩ := hfields sd1 (by decide) hres
  exact ⟨sd1, hres, hc, hl, hch⟩

theorem exists_first_equal {cmp : α → α → Int} {e : α} :
    ∀ {chain : List α}, (∃ w ∈ chain, cmp w e = 0) →
      ∃ pre v post, chain = pre ++ v :: post ∧ (∀ w ∈ pre, cmp w e ≠ 0) ∧ cmp v e = 0 ∧
        findNode cmp e chain = some pre.length ∧
        unlink chain pre.length = some (v, pre ++ post) := by
  intro chain hex
  cases hf : findNode cmp e chain with
  | none =>
    obtain ⟨w, hw, hwe⟩ := hex
    exact absurd hwe (findNode_none_iff.mp hf w hw)
  | some k =>
    obtain ⟨v, pre, post, hchain, hlen, hv, hpre, hun⟩ := findNode_some hf
    subst hlen
    exact ⟨pre, v, post, hchain, hpre, hv, rfl, hun⟩

/-- C19 (successful remove step): when the bucket of `e` holds a value equal to `e`,
the chain splits as `pre ++ v :: post` with `v` its first value equal to `e`, and
`remove(e)` returns 1 and yields the state in which only these fields differ: the bucket
of `e` holds `pre ++ post`, size is one smaller, load is smaller by the increment, the
change counter is one larger, and the destructor, when there is one, has been invoked
once more, on `v`; every other bucket is as before. -/
theorem successful_remove_step (sd : SData α) (e : α) (chain : List α)
    (hb : readAt sd.buckets (sd.hash e sd.capacity) = some chain)
    (hex : ∃ w ∈ chain, sd.cmp w e = 0) :
    ∃ pre v post, chain = pre ++ v :: post ∧ (∀ w ∈ pre, sd.cmp w e ≠ 0) ∧
      sd.cmp v e = 0 ∧
      s_remove sd e =
        some ({ sd with
          buckets := writeAt sd.buckets (sd.hash e sd.capacity) (pre ++ post)
          size := sd.size - 1
          load := sd.load - sd.increment
          changes := sd.changes + 1
          freed := if sd.freeV then sd.freed ++ [v] else sd.freed }, 1) ∧
      readAt (writeAt sd.buckets (sd.hash e sd.capacity) (pre ++ post))
        (sd.hash e sd.capacity) = some (pre ++ post) ∧
      ∀ j : Nat, j ≠ (sd.hash e sd.capacity).toNat →
        (writeAt sd.buckets (sd.hash e sd.capacity) (pre ++ post))[j]? = sd.buckets[j]? := by
  obtain ⟨pre, v, post, hchain, hpre, hv, hf, hun⟩ := exists_first_equal hex
  refine ⟨pre, v, post, hchain, hpre, hv, ?_, readAt_writeAt_same hb _,
    fun j hj => getElem?_writeAt_ne _ _ _ hj⟩
  unfold s_remove findMember
  simp only [hb, hf, hun]

/-- Witness of C19: `remove(1)` on the example set unlinks the second node of bucket 1. -/
theorem successful_remove_step_witness :
    ∃ pre v post, [3, 1] = pre ++ v :: post ∧ (∀ w ∈ pre, demoThree.cmp w 1 ≠ 0) ∧
      demoThree.cmp v 1 = 0 ∧
      s_remove demoThree 1 =
        some ({ demoThree with
          buckets := writeAt demoThree.buckets (demoThree.hash 1 demoThree.capacity)
            (pre ++ post)
          size := demoThree.size - 1
          load := demoThree.load - demoThree.increment
          changes := demoThree.changes + 1
          freed := if demoThree.freeV then demoThree.freed ++ [v] else demoThree.freed }, 1) := by
  obtain ⟨pre, v, post, h1, h2, h3, h4, _⟩ :=
    successful_remove_step demoThree 1 [3, 1] (by decide) ⟨1, by decide, by decide⟩
  exact ⟨pre, v, post, h1, h2, h3, h4⟩

/-! ## The growth trigger -/

theorem rehashed_changes {sd sd1 : SData α} {N : Int}
    (h : (match chainsUpTo sd.buckets sd.capacity.toNat with
      | none => none
      | some chains =>
        match rehashAll sd.hash N chains (List.replicate N.toNat []) with
        | none => none
        | some array =>
          some { sd with
            buckets := array
            capacity := N
            load := sd.load / 2
            changes := 0
            increment := 1 / (N : ℚ) }) = some sd1) : sd1.changes = 0 := by
  split at h
  · cases h
  · split at h
    · cases h
    · cases h
      rfl

theorem resize_changes {sd sd1 : SData α} {alloc : Bool} (h : resize sd alloc = some sd1)
    (h0 : sd.changes = 0) : sd1.changes = 0 := by
  unfold resize at h
  simp only at h
  split_ifs at h
  all_goals first
    | exact rehashed_changes h
    | (cases h; exact h0)

theorem locateInsert_some {sd sd2 : SData α} {e : α} {allocNode : Bool} {r : Int}
    (h : locateInsert sd e allocNode = some (sd2, r)) :
    sd2.capacity = sd.capacity ∧
      (sd2.changes = sd.changes ∨ sd2.changes = sd.changes + 1) := by
  unfold locateInsert at h
  split at h
  · cases h
  · unfold insertNode at h
    split at h
    · cases h
      exact ⟨rfl, Or.inl rfl⟩
    · split at h
      · cases h
      · cases h
        exact ⟨rfl, Or.inr rfl⟩
  · cases h
    exact ⟨rfl, Or.inl rfl⟩

theorem loadCheck_eq (sd : SData α) (allocArray : Bool) :
    (sd.changes > 100 ∧ sd.load > sd.loadFactor →
        loadCheck sd allocArray = resize { sd with changes := 0 } allocArray) ∧
      (sd.changes > 100 ∧ ¬ sd.load > sd.loadFactor →
        loadCheck sd allocArray = some { sd with changes := 0 }) ∧
      (sd.changes ≤ 100 → loadCheck sd allocArray = some sd) := by
  unfold loadCheck TRIGGER
  refine ⟨fun h => ?_, fun h => ?_, fun h => ?_⟩
  · rw [if_pos h.1, if_pos h.2]
  · rw [if_pos h.1, if_neg h.2]
  · rw [if_neg (not_lt.mpr h)]

/-- C17 (throttled growth trigger): `add(e)` is `resize` followed by the location and
insertion of `e` exactly when, on entry, the change counter exceeds 100 and the load
exceeds the load factor; otherwise it is the location and insertion alone, on the state
with the counter reset when it exceeded 100 and on the unchanged state when it did not.
The location and insertion keep the capacity and add at most one to the counter.  Hence
after an `add` entered with a counter above 100 the counter is 0 or 1, an `add` entered
with a counter of at most 100 keeps the capacity, `remove` keeps the capacity, and
`contains` keeps the whole state. -/
theorem throttled_growth_trigger (sd : SData α) (e : α) (allocArray allocNode : Bool) :
    (sd.changes > 100 ∧ sd.load > sd.loadFactor →
        s_add sd e allocArray allocNode =
          match resize { sd with changes := 0 } allocArray with
          | none => none
          | some sd1 => locateInsert sd1 e allocNode) ∧
      (sd.changes > 100 ∧ ¬ sd.load > sd.loadFactor →
        s_add sd e allocArray allocNode = locateInsert { sd with changes := 0 } e allocNode) ∧
      (sd.changes ≤ 100 → s_add sd e allocArray allocNode = locateInsert sd e allocNode) ∧
      (∀ t t2 r, locateInsert t e allocNode = some (t2, r) →
        t2.capacity = t.capacity ∧ (t2.changes = t.changes ∨ t2.changes = t.changes + 1)) ∧
      (∀ sd2 r, s_add sd e allocArray allocNode = some (sd2, r) →
        (sd.changes > 100 → sd2.changes = 0 ∨ sd2.changes = 1) ∧
        (sd.changes ≤ 100 → sd2.capacity = sd.capacity)) ∧
      (∀ sd2 r, s_remove sd e = some (sd2, r) → sd2.capacity = sd.capacity) ∧
      (∀ sd2 r, exec sd (Call.contains e) = some (sd2, r) → sd2 = sd) := by
  obtain ⟨hl1, hl2, hl3⟩ := loadCheck_eq sd allocArray
  refine ⟨fun h => ?_, fun h => ?_, fun h => ?_, fun t t2 r h => locateInsert_some h,
    fun sd2 r h => ⟨fun hgt => ?_, fun hle => ?_⟩, fun sd2 r h => ?_, fun sd2 r h => ?_⟩
  · rw [s_add_eq, hl1 h]
  · rw [s_add_eq, hl2 h]
  · rw [s_add_eq, hl3 h]
  · rw [s_add_eq] at h
    by_cases hload : sd.load > sd.loadFactor
    · rw [hl1 ⟨hgt, hload⟩] at h
      cases hres : resize { sd with changes := 0 } allocArray with
      | none => simp [hres] at h
      | some sd1 =>
        simp only [hres] at h
        have h0 : sd1.changes = 0 := resize_changes hres rfl
        obtain ⟨_, hch⟩ := locateInsert_some h
        rcases hch with hch | hch
        · exact Or.inl (hch.trans h0)
        · exact Or.inr (by rw [hch, h0]; rfl)
    · rw [hl2 ⟨hgt, hload⟩] at h
      obtain ⟨_, hch⟩ := locateInsert_some h
      rcases hch with hch | hch
      · exact Or.inl hch
      · exact Or.inr hch
  · rw [s_add_eq, hl3 hle] at h
    exact (locateInsert_some h).1
  · obtain ⟨chain, _, hcase⟩ := s_remove_cases h
    rcases hcase with ⟨_, rfl, _⟩ | ⟨_, _, _, _, _, _, _, _, rfl⟩
    · rfl
    · rfl
  · simp only [exec] at h
    split at h
    · cases h
    · cases h
      rfl

/-- Witness of C17: `add(5)` on the example set, entered with three changes. -/
theorem throttled_growth_trigger_witness :
    s_add demoThree 5 true true = locateInsert demoThree 5 true :=
  (throttled_growth_trigger demoThree 5 true true).2.2.1 (by decide)

/-! ## Indexing stays in range -/

theorem s_toArray_total {sd : SData α} (alloc : Bool) (hs : Slots sd)
    (hc : sd.size = ((entries sd).length : Int)) : ∃ res, s_toArray sd alloc = some res := by
  obtain ⟨hempty, hfull⟩ := s_toArray_eq hs hc
  by_cases hnil : entries sd = []
  · exact ⟨_, hempty hnil alloc⟩
  · cases alloc with
    | true => exact ⟨_, hfull hnil⟩
    | false =>
      refine ⟨none, ?_⟩
      by_cases hpos : sd.size > 0
      · simp [s_toArray, valueArray, hpos]
      · simp [s_toArray, valueArray, hpos]

/-- C20 (bucket indexing in range): in a reachable state, with a hash that stays in
`[0, n)`, `add`, `contains`, `remove`, `resize`, `clear` and `toArray` all return, so
that no access of theirs falls outside the bucket array; the stores of `toArray` fit in
the array of `size` slots it allocates; and whenever `findMember` returns a node, the
walk of `remove` along the chain of the bucket it reported reaches that node. -/
theorem indexing_in_range (sd : SData α) (hreach : Reachable sd)
    (hh : HashInRange sd.hash) :
    (∀ e allocArray allocNode, ∃ sd1 r, s_add sd e allocArray allocNode = some (sd1, r)) ∧
      (∀ e, ∃ r, s_contains sd e = some r) ∧
      (∀ e, ∃ sd1 r, s_remove sd e = some (sd1, r)) ∧
      (∀ alloc, ∃ sd1, resize sd alloc = some sd1) ∧
      (∃ sd1, s_clear sd = some sd1) ∧
      (∀ alloc, ∃ res, s_toArray sd alloc = some res) ∧
      (∃ chains tmp, chainsUpTo sd.buckets sd.capacity.toNat = some chains ∧
        fillArray chains.flatten (List.replicate sd.size.toNat none) 0 = some tmp) ∧
      (∀ e k i, findMember sd e = some (some k, i) →
        ∃ chain v rest, readAt sd.buckets i = some chain ∧ unlink chain k = some (v, rest)) := by
  obtain ⟨hs, hp⟩ := reachable_wellFormed hreach
  have hc := reachable_counted hreach
  refine ⟨fun e a1 a2 => s_add_total e a1 a2 hs hh, fun e => ?_,
    fun e => s_remove_total e hs hh, fun alloc => resize_total alloc hs hh,
    ⟨_, s_clear_eq hs⟩, fun alloc => s_toArray_total alloc hs hc, ?_, ?_⟩
  · rcases s_contains_eq e hs hp hh with ⟨h, _⟩ | ⟨h, _⟩
    · exact ⟨_, h⟩
    · exact ⟨_, h⟩
  · refine ⟨sd.buckets, (entries sd).map some, ?_, ?_⟩
    · rw [← hs.2.2]
      exact chainsUpTo_length _
    · have hfill := fillArray_append (entries sd) []
      simp only [List.nil_append, List.length_nil] at hfill
      have hn : sd.size.toNat = (entries sd).length := by
        rw [hc]
        simp
      rw [hn]
      exact hfill
  · intro e k i hf
    obtain ⟨_, chain, hr, hk⟩ := findMember_some hf
    obtain ⟨v, pre, post, _, _, _, _, hun⟩ := findNode_some hk.symm
    exact ⟨chain, v, pre ++ post, hr, hun⟩

/-- Witness of C20: the example set holding 2, 3 and 1, with the modulo hash. -/
theorem indexing_in_range_witness :
    (∃ sd1 r, s_add demoThree 7 true true = some (sd1, r)) ∧
      (∃ sd1 r, s_remove demoThree 3 = some (sd1, r)) ∧
      (∃ res, s_toArray demoThree true = some res) :=
  have h := indexing_in_range demoThree demoThree_reachable modHash_inRange
  ⟨h.1 7 true true, h.2.2.1 3, h.2.2.2.2.2.1 true⟩

/-! ## Runs of successful `add` calls -/

theorem execAll_append :
    ∀ (cs1 cs2 : List (Call α)) (sd sd2 : SData α) (rets : List (Option Int)),
      execAll sd (cs1 ++ cs2) = some (sd2, rets) →
      ∃ sd1 r1 r2, execAll sd cs1 = some (sd1, r1) ∧ execAll sd1 cs2 = some (sd2, r2) ∧
        rets = r1 ++ r2
  | [], cs2, sd, sd2, rets, h => ⟨sd, [], rets, rfl, h, rfl⟩
  | c :: cs1, cs2, sd, sd2, rets, h => by
    rw [List.cons_append] at h
    obtain ⟨sd1, r, rs, hex, hall, hrets⟩ := execAll_cons h
    obtain ⟨sd3, r1, r2, h1, h2, hrs⟩ := execAll_append cs1 cs2 sd1 sd2 rs hall
    refine ⟨sd3, r :: r1, r2, by simp [execAll, hex, h1], h2, ?_⟩
    rw [hrets, hrs]
    rfl

theorem execAll_length :
    ∀ (calls : List (Call α)) (sd sd2 : SData α) (rets : List (Option Int)),
      execAll sd calls = some (sd2, rets) → rets.length = calls.length
  | [], sd, sd2, rets, h => by
    simp only [execAll, Option.some.injEq, Prod.mk.injEq] at h
    rw [← h.2]
    rfl
  | c :: cs, sd, sd2, rets, h => by
    obtain ⟨sd1, r, rs, _, hall, hrets⟩ := execAll_cons h
    rw [hrets, List.length_cons, List.length_cons, execAll_length cs sd1 sd2 rs hall]

theorem s_add_below_trigger {sd sd2 : SData α} {e : α} {allocArray allocNode : Bool}
    (hch : sd.changes ≤ 100) (h : s_add sd e allocArray allocNode = some (sd2, 1)) :
    sd2.changes = sd.changes + 1 ∧ sd2.load = sd.load + sd.increment ∧
      sd2.capacity = sd.capacity ∧ sd2.increment = sd.increment ∧
      sd2.loadFactor = sd.loadFactor ∧ sd2.size = sd.size + 1 := by
  obtain ⟨t, chain, hl, _, hcase⟩ := s_add_cases h
  rw [(loadCheck_eq sd allocArray).2.2 hch] at hl
  cases hl
  rcases hcase with ⟨_, _, h0⟩ | ⟨_, _, _, h0⟩ | ⟨_, _, _, rfl⟩
  · exact absurd h0 (by decide)
  · exact absurd h0 (by decide)
  · exact ⟨rfl, rfl, rfl, rfl, rfl, rfl⟩

theorem adds_below_trigger :
    ∀ (calls : List (Call α)) (sd sd2 : SData α) (rets : List (Option Int)),
      onlyAdds calls = true → (∀ r ∈ rets, r = some 1) →
      execAll sd calls = some (sd2, rets) → sd.changes + (calls.length : Int) ≤ 101 →
      sd2.changes = sd.changes + (calls.length : Int) ∧
        sd2.load = sd.load + (calls.length : ℚ) * sd.increment ∧
        sd2.capacity = sd.capacity ∧ sd2.increment = sd.increment ∧
        sd2.loadFactor = sd.loadFactor ∧ sd2.size = sd.size + (calls.length : Int)
  | [], sd, sd2, rets, _, _, h, _ => by
    simp only [execAll, Option.some.injEq, Prod.mk.injEq] at h
    rw [← h.1]
    simp
  | Call.add member allocArray allocNode :: cs, sd, sd2, rets, ha, hall, h, hlen => by
    obtain ⟨sd1, r, rs, hex, hrun, hrets⟩ := execAll_cons h
    subst hrets
    have hr : r = some 1 := hall r (List.mem_cons_self _ _)
    subst hr
    simp only [exec] at hex
    split at hex
    · cases hex
    · rename_i sd3 r3 hadd
      simp only [Option.some.injEq, Prod.mk.injEq] at hex
      obtain ⟨rfl, hr3⟩ := hex
      cases hr3
      rw [List.length_cons, Nat.cast_succ] at hlen
      obtain ⟨h1, h2, h3, h4, h5, h6⟩ := s_add_below_trigger (by omega) hadd
      obtain ⟨k1, k2, k3, k4, k5, k6⟩ := adds_below_trigger cs sd3 sd2 rs
        (by simpa [onlyAdds] using ha) (fun x hx => hall x (List.mem_cons_of_mem _ hx)) hrun
        (by rw [h1]; omega)
      refine ⟨?_, ?_, k3.trans h3, k4.trans h4, k5.trans h5, ?_⟩
      · rw [k1, h1, List.length_cons, Nat.cast_succ]
        omega
      · rw [k2, h2, h4, List.length_cons, Nat.cast_succ]
        ring
      · rw [k6, h6, List.length_cons, Nat.cast_succ]
        omega
  | Call.remove _ :: _, _, _, _, ha, _, _, _ => by simp [onlyAdds] at ha
  | Call.clear :: _, _, _, _, ha, _, _, _ => by simp [onlyAdds] at ha
  | Call.contains _ :: _, _, _, _, ha, _, _, _ => by simp [onlyAdds] at ha
  | Call.isEmpty :: _, _, _, _, ha, _, _, _ => by simp [onlyAdds] at ha
  | Call.size :: _, _, _, _, ha, _, _, _ => by simp [onlyAdds] at ha

theorem hashSet_fields {freeValue : Bool} {cmpFxn : α → α → Int} {capacity : Int}
    {loadFactor : ℚ} {hashFxn : α → Int → Int} {sd0 : SData α}
    (h1 : 1 ≤ capacity) (h2 : capacity ≤ 134217728) (h3 : loadFactor > 1 / 1000000)
    (h : HashSet freeValue cmpFxn capacity loadFactor hashFxn true true true = some sd0) :
    sd0.capacity = capacity ∧ sd0.loadFactor = loadFactor ∧ sd0.size = 0 ∧ sd0.load = 0 ∧
      sd0.changes = 0 ∧ sd0.increment = 1 / (capacity : ℚ) := by
  unfold HashSet at h
  rw [newSet_eq] at h
  cases h
  have hc : (if (if capacity > 0 then capacity else DEFAULT_CAPACITY) > MAX_CAPACITY
      then MAX_CAPACITY else (if capacity > 0 then capacity else DEFAULT_CAPACITY)) =
      capacity := by
    unfold MAX_CAPACITY
    rw [if_pos (by omega : capacity > 0), if_neg (by omega)]
  simp only [hc, if_pos h3]
  exact ⟨trivial, trivial, trivial, trivial, trivial, trivial⟩

theorem onlyAdds_iff :
    ∀ {calls : List (Call α)},
      onlyAdds calls = true ↔ ∀ c ∈ calls, ∃ m a1 a2, c = Call.add m a1 a2
  | [] => by simp [onlyAdds]
  | Call.add m a1 a2 :: cs => by
    have ih := @onlyAdds_iff cs
    simp only [onlyAdds, List.mem_cons, forall_eq_or_imp]
    rw [ih]
    exact ⟨fun h => ⟨⟨m, a1, a2, rfl⟩, h⟩, fun h => h.2⟩
  | Call.remove _ :: cs => by
    simp only [onlyAdds, List.mem_cons, forall_eq_or_imp, Bool.false_eq_true, false_iff]
    rintro ⟨⟨m, a1, a2, h⟩, _⟩
    cases h
  | Call.clear :: cs => by
    simp only [onlyAdds, List.mem_cons, forall_eq_or_imp, Bool.false_eq_true, false_iff]
    rintro ⟨⟨m, a1, a2, h⟩, _⟩
    cases h
  | Call.contains _ :: cs => by
    simp only [onlyAdds, List.mem_cons, forall_eq_or_imp, Bool.false_eq_true, false_iff]
    rintro ⟨⟨m, a1, a2, h⟩, _⟩
    cases h
  | Call.isEmpty :: cs => by
    simp only [onlyAdds, List.mem_cons, forall_eq_or_imp, Bool.false_eq_true, false_iff]
    rintro ⟨⟨m, a1, a2, h⟩, _⟩
    cases h
  | Call.size :: cs => by
    simp only [onlyAdds, List.mem_cons, forall_eq_or_imp, Bool.false_eq_true, false_iff]
    rintro ⟨⟨m, a1, a2, h⟩, _⟩
    cases h

theorem arraysAllocated_mem :
    ∀ {calls : List (Call α)}, arraysAllocated calls = true →
      ∀ m a1 a2, Call.add m a1 a2 ∈ calls → a1 = true
  | [], _, m, a1, a2, hmem => by cases hmem
  | c :: cs, h, m, a1, a2, hmem => by
    have htail : arraysAllocated cs = true := by
      cases c <;> simp_all [arraysAllocated]
    rcases List.mem_cons.mp hmem with hc | hc
    · subst hc
      simp only [arraysAllocated, Bool.and_eq_true] at h
      exact h.1
    · exact arraysAllocated_mem htail m a1 a2 hc

theorem s_add_resized {sd sd2 : SData α} {e : α} {allocNode : Bool} {r : Int}
    (hch : sd.changes > 100) (hload : sd.load > sd.loadFactor) (h1 : 1 ≤ sd.capacity)
    (h2 : sd.capacity < MAX_CAPACITY) (h : s_add sd e true allocNode = some (sd2, r)) :
    sd2.capacity = grownCapacity sd.capacity ∧
      (r = 1 →
        sd2.load = sd.load / 2 + 1 / (grownCapacity sd.capacity : ℚ) ∧
        sd2.size = sd.size + 1) := by
  obtain ⟨t, chain, hl, _, hcase⟩ := s_add_cases h
  rw [(loadCheck_eq sd true).1 ⟨hch, hload⟩] at hl
  have hne : grownCapacity sd.capacity ≠ sd.capacity := by
    intro heq
    have := (grownCapacity_bounds h1 (le_of_lt h2)).2.2.mp heq
    omega
  rcases @resize_fields α { sd with changes := 0 } t true h1 (le_of_lt h2) hl with
    ⟨_, hcase1⟩ | ⟨_, _, hc, hld, _, hi, hsz, _⟩
  · rcases hcase1 with heq | hfalse
    · exact absurd heq hne
    · cases hfalse
  · rcases hcase with ⟨_, rfl, rfl⟩ | ⟨_, _, rfl, rfl⟩ | ⟨_, _, _, rfl⟩
    · exact ⟨hc, fun h01 => absurd h01 (by decide)⟩
    · exact ⟨hc, fun h01 => absurd h01 (by decide)⟩
    · refine ⟨hc, fun _ => ⟨?_, ?_⟩⟩
      · show t.load + t.increment = _
        rw [hld, hi]
      · show t.size + 1 = _
        rw [hsz]

/-! ## The small-table growth scenario -/

/-- C14, amended (small-table growth scenario): on a set constructed with capacity 2 and
load factor 0.5, consider `add` calls only, all returning 1.  Through the first 101 calls
the change counter equals the number of calls, so that no call enters with a counter
above 100, and the capacity stays 2.  The 102nd call enters with a counter of 101 and
triggers the load check: from then on the capacity is at least 4, provided the array
allocations of `resize` succeed.  At every moment, whether or not those allocations
succeed, each element inserted so far is found by `contains` (hash in `[0, n)`,
comparator reflexive). -/
theorem small_table_growth (freeValue : Bool) (cmpFxn : α → α → Int)
    (hashFxn : α → Int → Int) (sd0 sd : SData α) (calls : List (Call α))
    (rets : List (Option Int))
    (h0 : HashSet freeValue cmpFxn 2 (1 / 2) hashFxn true true true = some sd0)
    (hadds : onlyAdds calls = true)
    (hrun : execAll sd0 calls = some (sd, rets)) (hall : ∀ r ∈ rets, r = some 1) :
    (calls.length ≤ 101 → sd.changes = (calls.length : Int) ∧ sd.capacity = 2) ∧
      (arraysAllocated calls = true → 102 ≤ calls.length → 4 ≤ sd.capacity) ∧
      (HashInRange hashFxn → (∀ x, cmpFxn x x = 0) →
        ∀ e ∈ inserted calls rets, s_contains sd e = some 1) := by
  obtain ⟨hs0, hp0, hnil, _⟩ := hashSet_some h0
  obtain ⟨hcap0, hlf0, hsize0, hload0, hch0, hinc0⟩ :=
    hashSet_fields (by decide) (by decide) (by norm_num) h0
  obtain ⟨hhash0, hcmp0, _⟩ := hashSet_callbacks h0
  obtain ⟨hcb, hs, hp, _⟩ := execAll_wellFormed hs0 hp0 hrun
  refine ⟨fun hlen => ?_, fun harr hlen => ?_, fun hh hrefl e he => ?_⟩
  · obtain ⟨k1, _, k3, _⟩ := adds_below_trigger calls sd0 sd rets hadds hall hrun
      (by rw [hch0]; omega)
    exact ⟨by rw [k1, hch0]; omega, by rw [k3, hcap0]⟩
  · rw [← List.take_append_drop 101 calls] at hrun
    obtain ⟨sdA, r1, r2, hrun1, hrun2, hrets⟩ := execAll_append _ _ _ _ _ hrun
    have hlen1 : (calls.take 101).length = 101 := by
      rw [List.length_take]
      omega
    have hmem := onlyAdds_iff.mp hadds
    obtain ⟨k1, k2, k3, k4, k5, _⟩ := adds_below_trigger (calls.take 101) sd0 sdA r1
      (onlyAdds_iff.mpr fun c hc => hmem c (List.mem_of_mem_take hc))
      (fun r hr => hall r (by rw [hrets]; exact List.mem_append_left _ hr)) hrun1
      (by rw [hch0, hlen1]; decide)
    obtain ⟨_, hsA, hpA, _⟩ := execAll_wellFormed hs0 hp0 hrun1
    cases hdrop : calls.drop 101 with
    | nil =>
      have := congrArg List.length hdrop
      rw [List.length_drop, List.length_nil] at this
      omega
    | cons c rest =>
      rw [hdrop] at hrun2
      obtain ⟨sdB, r, rs, hex, hrun3, _⟩ := execAll_cons hrun2
      have hc : c ∈ calls := List.mem_of_mem_drop (by rw [hdrop]; exact List.mem_cons_self _ _)
      obtain ⟨m, a1, a2, rfl⟩ := hmem c hc
      have ha1 : a1 = true := arraysAllocated_mem harr m a1 a2 hc
      subst ha1
      obtain ⟨_, hsB, hpB, _⟩ := exec_some hsA hpA hex
      obtain ⟨_, _, _, hmono⟩ := execAll_wellFormed hsB hpB hrun3
      simp only [exec] at hex
      split at hex
      · cases hex
      · rename_i sdC rC hadd
        simp only [Option.some.injEq, Prod.mk.injEq] at hex
        obtain ⟨rfl, _⟩ := hex
        have hchA : sdA.changes > 100 := by
          rw [k1, hch0, hlen1]
          decide
        have hloadA : sdA.load > sdA.loadFactor := by
          rw [k2, k5, hload0, hinc0, hlf0, hlen1]
          norm_num
        have hcapA : sdA.capacity = 2 := by rw [k3, hcap0]
        obtain ⟨hcapC, _⟩ := s_add_resized hchA hloadA (by rw [hcapA]; decide)
          (by rw [hcapA]; decide) hadd
        rw [hcapA] at hcapC
        have h4 : grownCapacity 2 = 4 := by decide
        rw [h4] at hcapC
        rw [hcapC] at hmono
        exact hmono
  · have hperm := onlyAdds_entries calls sd0 sd rets hadds hs0 hp0 hrun
    rw [hnil, List.append_nil] at hperm
    exact contains_of_mem hs hp (by rw [hcb.1, hhash0]; exact hh)
      (by rw [hcb.2.1, hcmp0]; exact hrefl e) (hperm.mem_iff.mpr he)

/-! ## Runs of `add(1)`, ..., `add(n)` on integers -/

theorem addsUpTo_succ (n : Nat) :
    addsUpTo (n + 1) = addsUpTo n ++ [Call.add ((n : Int) + 1) true true] := by
  unfold addsUpTo
  rw [List.range'_concat, List.map_append]
  simp only [List.map_cons, List.map_nil, one_mul, Nat.cast_add, Nat.cast_one]
  rw [add_comm (1 : Int)]

theorem length_addsUpTo (n : Nat) : (addsUpTo n).length = n := by
  simp [addsUpTo]

theorem mem_addsUpTo {n : Nat} {c : Call Int} (h : c ∈ addsUpTo n) :
    ∃ m : Int, c = Call.add m true true := by
  unfold addsUpTo at h
  obtain ⟨i, _, rfl⟩ := List.mem_map.mp h
  exact ⟨_, rfl⟩

theorem onlyAdds_addsUpTo (n : Nat) : onlyAdds (addsUpTo n) = true :=
  onlyAdds_iff.mpr fun c hc => by
    obtain ⟨m, rfl⟩ := mem_addsUpTo hc
    exact ⟨m, true, true, rfl⟩

theorem nodesAllocated_append :
    ∀ (cs1 cs2 : List (Call α)), nodesAllocated cs1 = true → nodesAllocated cs2 = true →
      nodesAllocated (cs1 ++ cs2) = true
  | [], _, _, h2 => h2
  | c :: cs1, cs2, h1, h2 => by
    have ih := nodesAllocated_append cs1 cs2
    cases c <;> simp_all [nodesAllocated]

theorem nodesAllocated_addsUpTo : ∀ n : Nat, nodesAllocated (addsUpTo n) = true
  | 0 => rfl
  | n + 1 => by
    rw [addsUpTo_succ]
    exact nodesAllocated_append _ _ (nodesAllocated_addsUpTo n) rfl

theorem addsUpTo_spec (n : Nat) (rest : List (Call Int)) :
    ∃ T : List Int, (∀ x : Int, x ∈ T ↔ 1 ≤ x ∧ x ≤ (n : Int)) ∧
      (specExecAll numCmp [] (addsUpTo n ++ rest)).2 =
        List.replicate n (some 1) ++ (specExecAll numCmp T rest).2 := by
  have hl : addsUpTo n =
      ((List.range' 1 n).map fun i : Nat => (i : Int)).map fun e => Call.add e true true := by
    unfold addsUpTo
    rw [List.map_map]
    rfl
  have hnd : ((List.range' 1 n).map fun i : Nat => (i : Int)).Nodup :=
    (List.nodup_range' 1 n).map Nat.cast_injective
  have hpw : ((List.range' 1 n).map fun i : Nat => (i : Int)).Pairwise
      fun a b => numCmp a b ≠ 0 :=
    hnd.imp fun hab h => hab (numCmp_eq_zero.mp h)
  have hadds := specExecAll_adds numCmp _ [] hpw (by intro e _ v hv; cases hv)
  refine ⟨((List.range' 1 n).map fun i : Nat => (i : Int)).reverse, ?_, ?_⟩
  · intro x
    simp only [List.mem_reverse, List.mem_map, List.mem_range']
    constructor
    · rintro ⟨i, ⟨j, hj, rfl⟩, rfl⟩
      omega
    · rintro ⟨h1, h2⟩
      exact ⟨x.toNat, ⟨x.toNat - 1, by omega, by omega⟩, by omega⟩
  · rw [hl, specExecAll_append, hadds]
    simp

theorem addsUpTo_run {freeValue : Bool} {capacity : Int} {loadFactor : ℚ}
    {sd0 : SData Int}
    (h0 : HashSet freeValue numCmp capacity loadFactor modHash true true true = some sd0)
    (n : Nat) :
    ∃ sd rets, execAll sd0 (addsUpTo n) = some (sd, rets) ∧ ∀ r ∈ rets, r = some 1 := by
  obtain ⟨sd, rets, hrun, hrets⟩ := hashSet_refines h0 modHash_inRange numCmp_equivalence
    modHash_consistent (addsUpTo n) (nodesAllocated_addsUpTo n)
  obtain ⟨T, _, hspec⟩ := addsUpTo_spec n []
  rw [List.append_nil] at hspec
  refine ⟨sd, rets, hrun, fun r hr => ?_⟩
  rw [hrets, hspec] at hr
  simp only [specExecAll, List.append_nil] at hr
  exact List.eq_of_mem_replicate hr

theorem loadCheck_changes {sd t : SData α} {alloc : Bool} (hch : sd.changes > 100)
    (h : loadCheck sd alloc = some t) : t.changes = 0 := by
  by_cases hload : sd.load > sd.loadFactor
  · rw [(loadCheck_eq sd alloc).1 ⟨hch, hload⟩] at h
    exact resize_changes h rfl
  · rw [(loadCheck_eq sd alloc).2.1 ⟨hch, hload⟩] at h
    cases h
    rfl

theorem s_add_zero {sd sd1 : SData α} {e : α} {allocArray allocNode : Bool}
    (h : s_add sd e allocArray allocNode = some (sd1, 0)) :
    loadCheck sd allocArray = some sd1 := by
  obtain ⟨t, chain, hl, _, hcase⟩ := s_add_cases h
  rcases hcase with ⟨_, rfl, _⟩ | ⟨_, _, rfl, _⟩ | ⟨_, _, h01, _⟩
  · exact hl
  · exact hl
  · exact absurd h01 (by decide)

/-! ## A failed `add` -/

/-- Counterexample to C13 as stated: on the two-bucket example set, after `add(1)`, ...,
`add(101)` the change counter is 101; the call `add(1)` that follows returns 0, and the
state it leaves differs from the state it found, its change counter being 0. -/
theorem failed_add_changes_state :
    ∃ (sd sd1 : SData Int) (rets : List (Option Int)),
      HashSet false numCmp 2 (1 / 2) modHash true true true = some demoFresh ∧
      execAll demoFresh (addsUpTo 101) = some (sd, rets) ∧ Reachable sd ∧
      s_add sd 1 true true = some (sd1, 0) ∧
      sd.changes = 101 ∧ sd1.changes = 0 ∧ sd1 ≠ sd := by
  obtain ⟨sd2, rets, hrun, hrets⟩ := hashSet_refines demoFresh_constructed modHash_inRange
    numCmp_equivalence modHash_consistent (addsUpTo 101 ++ [Call.add 1 true true])
    (nodesAllocated_append _ _ (nodesAllocated_addsUpTo 101) rfl)
  obtain ⟨T, hT, hspec⟩ := addsUpTo_spec 101 [Call.add 1 true true]
  have hm : specMember numCmp T 1 = true := specMember_numCmp.mpr ((hT 1).mpr (by decide))
  have hlast : (specExecAll numCmp T [Call.add 1 true true]).2 = [some 0] := by
    simp [specExecAll, specExec, hm]
  rw [hspec, hlast] at hrets
  obtain ⟨sd, r1, r2, hrun1, hrun2, happ⟩ := execAll_append _ _ _ _ _ hrun
  have hlen1 : r1.length = 101 := by
    rw [execAll_length _ _ _ _ hrun1, length_addsUpTo]
  obtain ⟨hr1, hr2⟩ := List.append_inj (hrets.symm.trans happ) (by simp [hlen1])
  obtain ⟨sd1, r, rs, hex, hnil, hr⟩ := execAll_cons hrun2
  simp only [execAll, Option.some.injEq, Prod.mk.injEq] at hnil
  rw [hr, ← hnil.2] at hr2
  have hr0 : r = some 0 := by
    have := List.cons.inj hr2
    exact this.1.symm
  subst hr0
  simp only [exec] at hex
  split at hex
  · cases hex
  · rename_i sd3 r3 hadd
    simp only [Option.some.injEq, Prod.mk.injEq] at hex
    obtain ⟨rfl, hr3⟩ := hex
    subst hr3
    obtain ⟨_, _, _, _, hch0, _⟩ :=
      hashSet_fields (by decide) (by decide) (by norm_num) demoFresh_constructed
    obtain ⟨k1, _⟩ := adds_below_trigger (addsUpTo 101) demoFresh sd r1
      (onlyAdds_addsUpTo 101)
      (fun x hx => by rw [← hr1] at hx; exact List.eq_of_mem_replicate hx) hrun1
      (by rw [hch0, length_addsUpTo]; decide)
    have hch : sd.changes = 101 := by
      rw [k1, hch0, length_addsUpTo]
      rfl
    have hch1 : sd3.changes = 0 := loadCheck_changes (by rw [hch]; decide) (s_add_zero hadd)
    refine ⟨sd, sd3, r1, demoFresh_constructed, hrun1,
      ⟨false, numCmp, 2, 1 / 2, modHash, demoFresh, addsUpTo 101, r1,
        demoFresh_constructed, hrun1⟩, hadd, hch, hch1, ?_⟩
    intro heq
    rw [heq, hch] at hch1
    exact absurd hch1 (by decide)

/-- C13, amended (failed add): in a reachable state, when `add(e)` returns 0 the state
after the call is the state left by the load check that opens `add`.  It is the state
before the call when the change counter was at most 100 on entry; when the counter
exceeded 100 the counter is 0 afterwards, and the state is the state before the call with
the counter reset unless the load exceeded the load factor, in which case `resize` has
run.  In every case size and the stored elements, as a multiset, are as before. -/
theorem failed_add_state (sd sd1 : SData α) (e : α) (allocArray allocNode : Bool)
    (hreach : Reachable sd) (h : s_add sd e allocArray allocNode = some (sd1, 0)) :
    loadCheck sd allocArray = some sd1 ∧
      (sd.changes ≤ 100 → sd1 = sd) ∧
      (sd.changes > 100 → sd1.changes = 0) ∧
      (sd.changes > 100 → ¬ sd.load > sd.loadFactor → sd1 = { sd with changes := 0 }) ∧
      (sd.changes > 100 → sd.load > sd.loadFactor →
        resize { sd with changes := 0 } allocArray = some sd1) ∧
      s_size sd1 = s_size sd ∧ (entries sd1).Perm (entries sd) := by
  obtain ⟨hs, _⟩ := reachable_wellFormed hreach
  have hl := s_add_zero h
  obtain ⟨_, _, hsize, _, _, hperm, _⟩ := loadCheck_some hs hl
  obtain ⟨hl1, hl2, hl3⟩ := loadCheck_eq sd allocArray
  refine ⟨hl, fun hle => ?_, fun hgt => loadCheck_changes hgt hl, fun hgt hload => ?_,
    fun hgt hload => ?_, hsize, hperm⟩
  · rw [hl3 hle] at hl
    exact (Option.some.inj hl).symm
  · rw [hl2 ⟨hgt, hload⟩] at hl
    exact (Option.some.inj hl).symm
  · rw [hl1 ⟨hgt, hload⟩] at hl
    exact hl

/-- Witness of C13, amended: `add(3)` on the example set that already holds 3. -/
theorem failed_add_state_witness :
    loadCheck demoThree true = some demoThree ∧ s_size demoThree = s_size demoThree :=
  have h := failed_add_state demoThree demoThree 3 true true demoThree_reachable rfl
  ⟨h.1, h.2.2.2.2.2.1⟩

/-! ## The load after a clamped `resize` -/

/-- C12, the code at the failing input: on a set constructed with capacity 100000000
and load factor 0.000001001, the calls `add(1)`, ..., `add(102)` all return 1; the last
one finds a change counter of 101 and a load of 101/100000000 above the load factor, so
`resize` runs, clamps the new capacity to 134217728 and halves the load.  The final
state has size 102, capacity 134217728 and load `101/200000000 + 1/134217728`, which is
not `size / capacity`. -/
theorem load_after_clamped_resize :
    ∃ (sd0 sd : SData Int) (rets : List (Option Int)),
      HashSet false numCmp 100000000 (1001 / 1000000000) modHash true true true = some sd0 ∧
      execAll sd0 (addsUpTo 102) = some (sd, rets) ∧ (∀ r ∈ rets, r = some 1) ∧
      sd.size = 102 ∧ sd.capacity = 134217728 ∧
      sd.load = 101 / 200000000 + 1 / 134217728 ∧
      sd.load ≠ (sd.size : ℚ) / (sd.capacity : ℚ) := by
  obtain ⟨sd0, h0⟩ : ∃ sd0 : SData Int,
      HashSet false numCmp 100000000 (1001 / 1000000000) modHash true true true = some sd0 :=
    ⟨_, newSet_eq _ _ _ _ _⟩
  obtain ⟨hcap0, hlf0, hsize0, hload0, hch0, hinc0⟩ :=
    hashSet_fields (by decide) (by decide) (by norm_num) h0
  obtain ⟨sd, rets, hrun, hall⟩ := addsUpTo_run h0 102
  refine ⟨sd0, sd, rets, h0, hrun, hall, ?_⟩
  have hsplit : addsUpTo 102 = addsUpTo 101 ++ [Call.add 102 true true] := addsUpTo_succ 101
  rw [hsplit] at hrun
  obtain ⟨sdA, r1, r2, hrun1, hrun2, happ⟩ := execAll_append _ _ _ _ _ hrun
  obtain ⟨k1, k2, k3, k4, k5, k6⟩ := adds_below_trigger (addsUpTo 101) sd0 sdA r1
    (onlyAdds_addsUpTo 101)
    (fun x hx => hall x (by rw [happ]; exact List.mem_append_left _ hx)) hrun1
    (by rw [hch0, length_addsUpTo]; decide)
  rw [length_addsUpTo] at k1 k2 k6
  obtain ⟨sdB, r, rs, hex, hnil, hr⟩ := execAll_cons hrun2
  simp only [execAll, Option.some.injEq, Prod.mk.injEq] at hnil
  have hr1 : r = some 1 :=
    hall r (by rw [happ, hr]; exact List.mem_append_right _ (List.mem_cons_self _ _))
  subst hr1
  rw [← hnil.1]
  simp only [exec] at hex
  split at hex
  · cases hex
  · rename_i sdC rC hadd
    simp only [Option.some.injEq, Prod.mk.injEq] at hex
    obtain ⟨rfl, hrC⟩ := hex
    subst hrC
    have hchA : sdA.changes > 100 := by
      rw [k1, hch0]
      decide
    have hloadA : sdA.load > sdA.loadFactor := by
      rw [k2, k5, hload0, hinc0, hlf0]
      norm_num
    have hcapA : sdA.capacity = 100000000 := by rw [k3, hcap0]
    obtain ⟨hcapC, hrest⟩ := s_add_resized hchA hloadA (by rw [hcapA]; decide)
      (by rw [hcapA]; decide) hadd
    obtain ⟨hloadC, hsizeC⟩ := hrest rfl
    have hg : grownCapacity 100000000 = 134217728 := by decide
    rw [hcapA, hg] at hcapC hloadC
    have hsize : sdC.size = 102 := by
      rw [hsizeC, k6, hsize0]
      rfl
    have hload : sdC.load = 101 / 200000000 + 1 / 134217728 := by
      rw [hloadC, k2, hload0, hinc0]
      norm_num
    refine ⟨hsize, hcapC, hload, ?_⟩
    rw [hload, hsize, hcapC]
    norm_num

/-- Witness of C14, amended: the calls `add(1)`, ..., `add(102)` on the two-bucket
example set, every allocation succeeding, return and leave a capacity of at least 4. -/
theorem small_table_growth_witness :
    ∃ sd rets, execAll demoFresh (addsUpTo 102) = some (sd, rets) ∧ 4 ≤ sd.capacity := by
  obtain ⟨sd, rets, hrun, hall⟩ := addsUpTo_run demoFresh_constructed 102
  exact ⟨sd, rets, hrun,
    (small_table_growth false numCmp modHash demoFresh sd (addsUpTo 102) rets
      demoFresh_constructed (onlyAdds_addsUpTo 102) hrun hall).2.1 (by decide)
      (by rw [length_addsUpTo])⟩

theorem s_add_unresized {sd sd2 : SData α} {e : α} {allocNode : Bool}
    (hch : sd.changes > 100) (hload : sd.load > sd.loadFactor) (h1 : 1 ≤ sd.capacity)
    (h2 : sd.capacity ≤ MAX_CAPACITY) (h : s_add sd e false allocNode = some (sd2, 1)) :
    sd2.capacity = sd.capacity ∧ sd2.changes = 1 ∧ sd2.size = sd.size + 1 := by
  obtain ⟨t, chain, hl, _, hcase⟩ := s_add_cases h
  rw [(loadCheck_eq sd false).1 ⟨hch, hload⟩] at hl
  rcases @resize_fields α { sd with changes := 0 } t false h1 h2 hl with
    ⟨rfl, _⟩ | ⟨_, hfalse, _⟩
  · rcases hcase with ⟨_, _, h0⟩ | ⟨_, _, _, h0⟩ | ⟨_, _, _, rfl⟩
    · exact absurd h0 (by decide)
    · exact absurd h0 (by decide)
    · exact ⟨rfl, rfl, rfl⟩
  · cases hfalse

/-- Counterexample to C14 as stated: on the set constructed with capacity 2 and load
factor 0.5, the calls `add(1)`, ..., `add(101)` and then `add(102)` with the array of
`resize` not allocated all return 1.  The last call enters with a change counter of 101
and a load above the load factor, so the load check runs and resets the counter, but
`resize` gives up on its failed allocation: the final state has 102 elements, a change
counter of 1 and still capacity 2. -/
theorem small_table_growth_skipped :
    ∃ (sdA sd : SData Int) (retsA rets : List (Option Int)),
      HashSet false numCmp 2 (1 / 2) modHash true true true = some demoFresh ∧
      execAll demoFresh (addsUpTo 101) = some (sdA, retsA) ∧
      sdA.changes = 101 ∧ sdA.load > sdA.loadFactor ∧
      execAll demoFresh (addsUpTo 101 ++ [Call.add 102 false true]) = some (sd, rets) ∧
      rets.length = 102 ∧ (∀ r ∈ rets, r = some 1) ∧
      sd.size = 102 ∧ sd.changes = 1 ∧ sd.capacity = 2 ∧ ¬ 4 ≤ sd.capacity := by
  obtain ⟨sd, rets, hrun, hrets⟩ := hashSet_refines demoFresh_constructed modHash_inRange
    numCmp_equivalence modHash_consistent (addsUpTo 101 ++ [Call.add 102 false true])
    (nodesAllocated_append _ _ (nodesAllocated_addsUpTo 101) rfl)
  obtain ⟨T, hT, hspec⟩ := addsUpTo_spec 101 [Call.add 102 false true]
  have hm : specMember numCmp T 102 = false :=
    specMember_false fun v hv hve => by
      have := (hT 102).mp (by rw [← numCmp_eq_zero.mp hve]; exact hv)
      omega
  have hlast : (specExecAll numCmp T [Call.add 102 false true]).2 = [some 1] := by
    simp [specExecAll, specExec, hm]
  rw [hspec, hlast] at hrets
  have hall : ∀ r ∈ rets, r = some 1 := by
    intro r hr
    rw [hrets] at hr
    rcases List.mem_append.mp hr with h | h
    · exact List.eq_of_mem_replicate h
    · exact List.mem_singleton.mp h
  have hlen : rets.length = 102 := by
    rw [hrets]
    simp
  obtain ⟨sdA, r1, r2, hrun1, hrun2, happ⟩ := execAll_append _ _ _ _ _ hrun
  obtain ⟨hcap0, hlf0, hsize0, hload0, hch0, hinc0⟩ :=
    hashSet_fields (by decide) (by decide) (by norm_num) demoFresh_constructed
  obtain ⟨k1, k2, k3, k4, k5, k6⟩ := adds_below_trigger (addsUpTo 101) demoFresh sdA r1
    (onlyAdds_addsUpTo 101)
    (fun x hx => hall x (by rw [happ]; exact List.mem_append_left _ hx)) hrun1
    (by rw [hch0, length_addsUpTo]; decide)
  rw [length_addsUpTo] at k1 k2 k6
  have hchA : sdA.changes = 101 := by
    rw [k1, hch0]
    rfl
  have hloadA : sdA.load > sdA.loadFactor := by
    rw [k2, k5, hload0, hinc0, hlf0]
    norm_num
  have hcapA : sdA.capacity = 2 := by rw [k3, hcap0]
  obtain ⟨sdB, r, rs, hex, hnil, hr⟩ := execAll_cons hrun2
  simp only [execAll, Option.some.injEq, Prod.mk.injEq] at hnil
  have hr1 : r = some 1 :=
    hall r (by rw [happ, hr]; exact List.mem_append_right _ (List.mem_cons_self _ _))
  subst hr1
  simp only [exec] at hex
  split at hex
  · cases hex
  · rename_i sdC rC hadd
    simp only [Option.some.injEq, Prod.mk.injEq] at hex
    obtain ⟨rfl, hrC⟩ := hex
    subst hrC
    obtain ⟨hcapC, hchC, hsizeC⟩ := s_add_unresized (by rw [hchA]; decide) hloadA
      (by rw [hcapA]; decide) (by rw [hcapA]; decide) hadd
    have hsd : sd = sdC := hnil.1.symm
    have hcap : sd.capacity = 2 := by rw [hsd, hcapC, hcapA]
    refine ⟨sdA, sd, r1, rets, demoFresh_constructed, hrun1, hchA, hloadA, hrun, hlen, hall,
      ?_, by rw [hsd, hchC], hcap, by rw [hcap]; decide⟩
    rw [hsd, hsizeC, k6, hsize0]
    rfl

end HashSetADT
